import Mathlib

/-!
Verification of the path matcher, ranker, navigation orchestrator and history
backends of a client-side router (vue-router 4.5.0 sources).

Strings of the JavaScript source are modelled as `List Char` (named `Str`
below) so that structural induction over path characters is available.
JavaScript numbers appearing in the scoring machinery are modelled as exact
rationals; all score constants used by the claims are integral, so no
floating-point rounding is observable in any statement proved here.
-/

namespace VueRouter

/-- Character lists stand in for JavaScript strings. -/
abbrev Str := List Char

/-! ## Tokenizer (`pathTokenizer.ts`)

`tokenizePath` turns a path pattern into segments of tokens via a
left-to-right scan with an explicit state machine.  The scan loop of the
source advances an index `i`, occasionally stepping it back one character
(after finishing a parameter); a fuel argument of `2 * length + 1` bounds the
loop (each index is visited at most twice), keeping the definition total. -/

/-- Token of a tokenized path: a static chunk or a parameter.  The source's
`TokenType.Group` variant is never produced by `tokenizePath` and is omitted.
An empty `regexp` models the absent custom regexp. -/
inductive Token where
  | static (value : Str)
  | param (value : Str) (regexp : Str) (repeatable : Bool) (optional : Bool)
  deriving DecidableEq, Repr

/-- States of the tokenizer state machine. -/
inductive TokenizerState where
  | Static
  | Param
  | ParamRegExp
  | ParamRegExpEnd
  | EscapeNext
  deriving DecidableEq, Repr

/-- Mutable locals of the `tokenizePath` scan loop. -/
structure TkState where
  state : TokenizerState
  previousState : TokenizerState
  tokens : List (List Token)
  segment : Option (List Token)
  i : Nat
  char : Char
  buffer : Str
  customRe : Str
  deriving Repr

/-- `VALID_PARAM_RE`: characters allowed in a parameter name. -/
def isValidParamChar (c : Char) : Bool :=
  (('a' ≤ c && c ≤ 'z') || ('A' ≤ c && c ≤ 'Z') || ('0' ≤ c && c ≤ '9') || c = '_')

/-- Append a token to the current segment. -/
def pushToken (st : TkState) (t : Token) : TkState :=
  { st with segment := some (st.segment.getD [] ++ [t]) }

/-- `consumeBuffer` of the source: flush the character buffer into a token.
A repeatable parameter (`*` or `+` modifier) consumed into a segment that
already holds more than one token is a tokenizer error. -/
def consumeBuffer (st : TkState) : Except String TkState :=
  if st.buffer = [] then .ok st
  else if st.state = .Static then
    .ok { pushToken st (.static st.buffer) with buffer := [] }
  else if st.state = .Param ∨ st.state = .ParamRegExp ∨ st.state = .ParamRegExpEnd then
    if 1 < (st.segment.getD []).length ∧ (st.char = '*' ∨ st.char = '+') then
      .error "A repeatable param must be alone in its segment"
    else
      .ok { pushToken st
              (.param st.buffer st.customRe (st.char = '*' || st.char = '+')
                (st.char = '*' || st.char = '?')) with buffer := [] }
  else .error "Invalid state to consume buffer"

/-- `finalizeSegment` of the source: push the pending segment (when it has
been started) and begin a fresh one. -/
def finalizeSegment (st : TkState) : TkState :=
  { st with
    tokens := st.tokens ++ (match st.segment with | some s => [s] | none => [])
    segment := some [] }

/-- The scan loop of `tokenizePath`.  Mirrors the `while (i < path.length)`
loop of the source, including the one-character step back after a
parameter ends on a non-modifier character. -/
def tokenizeLoop (path : Str) : Nat → TkState → Except String TkState
  | 0, _ => .error "tokenizer fuel exhausted"
  | fuel + 1, st =>
    if h : st.i < path.length then
      let char := path.get ⟨st.i, h⟩
      let st := { st with i := st.i + 1, char := char }
      if char = '\\' ∧ st.state ≠ .ParamRegExp then
        tokenizeLoop path fuel { st with previousState := st.state, state := .EscapeNext }
      else
        match st.state with
        | .Static =>
          if char = '/' then do
            let st ← if st.buffer ≠ [] then consumeBuffer st else .ok st
            tokenizeLoop path fuel (finalizeSegment st)
          else if char = ':' then do
            let st ← consumeBuffer st
            tokenizeLoop path fuel { st with state := .Param }
          else
            tokenizeLoop path fuel { st with buffer := st.buffer ++ [char] }
        | .EscapeNext =>
          tokenizeLoop path fuel { st with buffer := st.buffer ++ [char], state := st.previousState }
        | .Param =>
          if char = '(' then
            tokenizeLoop path fuel { st with state := .ParamRegExp }
          else if isValidParamChar char then
            tokenizeLoop path fuel { st with buffer := st.buffer ++ [char] }
          else do
            let st ← consumeBuffer st
            let st := { st with state := .Static }
            let st := if char ≠ '*' ∧ char ≠ '?' ∧ char ≠ '+' then { st with i := st.i - 1 } else st
            tokenizeLoop path fuel st
        | .ParamRegExp =>
          if char = ')' then
            if st.customRe.getLast? = some '\\' then
              tokenizeLoop path fuel { st with customRe := st.customRe.dropLast ++ [char] }
            else
              tokenizeLoop path fuel { st with state := .ParamRegExpEnd }
          else
            tokenizeLoop path fuel { st with customRe := st.customRe ++ [char] }
        | .ParamRegExpEnd => do
          let st ← consumeBuffer st
          let st := { st with state := .Static }
          let st := if char ≠ '*' ∧ char ≠ '?' ∧ char ≠ '+' then { st with i := st.i - 1 } else st
          tokenizeLoop path fuel { st with customRe := [] }
    else .ok st

/-- `ROOT_TOKEN`: the single token of the root path. -/
def ROOT_TOKEN : Token := .static []

/-- `tokenizePath` of the source: path pattern to segments of tokens, or an
error for malformed patterns. -/
def tokenizePath (path : Str) : Except String (List (List Token)) :=
  if path = [] then .ok [[]]
  else if path = ['/'] then .ok [[ROOT_TOKEN]]
  else if path.head? ≠ some '/' then .error "Route paths should start with a slash"
  else do
    let st ← tokenizeLoop path (2 * path.length + 1)
      { state := .Static, previousState := .Static, tokens := [], segment := none,
        i := 0, char := ' ', buffer := [], customRe := [] }
    if st.state = .ParamRegExp then .error "Unfinished custom RegExp for param"
    else
      let st ← consumeBuffer st
      .ok (finalizeSegment st).tokens

/-! ## Scores and ranking (`pathParserRanker.ts`) -/

namespace PathScore

def multiplier : ℚ := 10
def Root : ℚ := 9 * multiplier
def Segment : ℚ := 4 * multiplier
def SubSegment : ℚ := 3 * multiplier
def Static : ℚ := 4 * multiplier
def Dynamic : ℚ := 2 * multiplier
def BonusCustomRegExp : ℚ := 1 * multiplier
def BonusWildcard : ℚ := -4 * multiplier - BonusCustomRegExp
def BonusRepeatable : ℚ := -2 * multiplier
def BonusOptional : ℚ := -(8 / 10) * multiplier
def BonusStrict : ℚ := (7 / 100) * multiplier
def BonusCaseSensitive : ℚ := (25 / 1000) * multiplier

end PathScore

/-- Options accepted by `tokensToParser`.  The source's `end` option is named
`endMatch` here because `end` is reserved in Lean. -/
structure PathParserOptions where
  sensitive : Bool := false
  strict : Bool := false
  start : Bool := true
  endMatch : Bool := true
  deriving DecidableEq, Repr

/-- `BASE_PARAM_PATTERN`: the default regexp of a parameter. -/
def BASE_PARAM_PATTERN : Str := '[' :: '^' :: '/' :: ']' :: '+' :: '?' :: []

/-- Score contributed by one token, as computed inside the token loop of
`tokensToParser`. -/
def tokenScore (opts : PathParserOptions) (tok : Token) : ℚ :=
  let base := PathScore.Segment + (if opts.sensitive then PathScore.BonusCaseSensitive else 0)
  match tok with
  | .static _ => base + PathScore.Static
  | .param _ regexp repeatable opt =>
    let re := if regexp = [] then BASE_PARAM_PATTERN else regexp
    let s := base + (if re ≠ BASE_PARAM_PATTERN then PathScore.BonusCustomRegExp else 0)
    let s := s + PathScore.Dynamic
    let s := s + (if opt then PathScore.BonusOptional else 0)
    let s := s + (if repeatable then PathScore.BonusRepeatable else 0)
    s + (if re = '.' :: '*' :: [] then PathScore.BonusWildcard else 0)

/-- Score list of one segment: the empty segment scores `[Root]`, otherwise
one entry per token. -/
def segmentScore (opts : PathParserOptions) (seg : List Token) : List ℚ :=
  if seg = [] then [PathScore.Root] else seg.map (tokenScore opts)

/-- Add `BonusStrict` to the last entry of a score list. -/
def bumpLast : List ℚ → List ℚ
  | [] => []
  | [x] => [x + PathScore.BonusStrict]
  | x :: rest => x :: bumpLast rest

/-- Add `BonusStrict` to the last entry of the last segment score. -/
def addBonusStrict : List (List ℚ) → List (List ℚ)
  | [] => []
  | [s] => [bumpLast s]
  | s :: rest => s :: addBonusStrict rest

/-- The `score` component built by `tokensToParser`. -/
def scoreOf (opts : PathParserOptions) (segments : List (List Token)) : List (List ℚ) :=
  let sc := segments.map (segmentScore opts)
  if opts.strict ∧ opts.endMatch then addBonusStrict sc else sc

/-- Parameter descriptor recorded by `tokensToParser` for each parameter
token, aligned with the capture groups of the generated regexp. -/
structure PathParserParamKey where
  name : Str
  repeatable : Bool
  optional : Bool
  deriving DecidableEq, Repr

/-- Keys contributed by a single token. -/
def keyOfToken : Token → List PathParserParamKey
  | .static _ => []
  | .param value _ repeatable opt => [{ name := value, repeatable := repeatable, optional := opt }]

/-- Keys of one segment, in token order. -/
def keysOfTokens (seg : List Token) : List PathParserParamKey :=
  (seg.map keyOfToken).flatten

/-- The `keys` component built by `tokensToParser` (parameter descriptors in
pattern order). -/
def keysOf (segments : List (List Token)) : List PathParserParamKey :=
  (segments.map keysOfTokens).flatten

/-- First nonzero entry-wise difference `b[i] - a[i]` over the common prefix,
as scanned by the `while` loop of `compareScoreArray`. -/
def firstNonzeroDiff : List ℚ → List ℚ → Option ℚ
  | a :: as, b :: bs =>
    let diff := b - a
    if diff ≠ 0 then some diff else firstNonzeroDiff as bs
  | _, _ => none

/-- `compareScoreArray` of the source: lexicographic comparison of two
per-segment score lists, with the bare-static tie-break on the length. -/
def compareScoreArray (a b : List ℚ) : ℚ :=
  match firstNonzeroDiff a b with
  | some d => d
  | none =>
    if a.length < b.length then
      if a.length = 1 ∧ a.head? = some (PathScore.Static + PathScore.Segment) then -1 else 1
    else if b.length < a.length then
      if b.length = 1 ∧ b.head? = some (PathScore.Static + PathScore.Segment) then 1 else -1
    else 0

/-- First nonzero `compareScoreArray` over the common prefix of two full
score lists. -/
def firstNonzeroComp : List (List ℚ) → List (List ℚ) → Option ℚ
  | a :: as, b :: bs =>
    let c := compareScoreArray a b
    if c ≠ 0 then some c else firstNonzeroComp as bs
  | _, _ => none

/-- `isLastScoreNegative` of the source: detects a splat at the end of a
path. -/
def isLastScoreNegative (score : List (List ℚ)) : Bool :=
  decide (0 < score.length) &&
    (match score.getLast? with
     | some last =>
       match last.getLast? with
       | some v => decide (v < 0)
       | none => false
     | none => false)

/-- `comparePathParserScore` of the source, stated on the score lists (the
only component of a `PathParser` that the comparison reads). -/
def comparePathParserScore (aScore bScore : List (List ℚ)) : ℚ :=
  match firstNonzeroComp aScore bScore with
  | some c => c
  | none =>
    if ((bScore.length : Int) - (aScore.length : Int)).natAbs = 1 then
      if isLastScoreNegative aScore then 1
      else if isLastScoreNegative bScore then -1
      else (bScore.length : ℚ) - (aScore.length : ℚ)
    else (bScore.length : ℚ) - (aScore.length : ℚ)

/-! ## Semantics of the generated regular expression

`tokensToParser` compiles the segments into a host `RegExp`.  The language of
that regexp is modelled here as a match relation built structurally from the
same per-token pattern fragments the source concatenates (static text,
`([^/]+?)` capture groups, the optional and repeatable wrappers, the leading
slash attached to the first token of a segment, and the optional trailing
slash of non-strict mode).  The relation is stated for the default
`start = true` / `end = true` options, which anchor the pattern at both ends;
custom parameter regexps are given by an abstract semantics parameter
`sem : Str → Str → Prop` (regexp source to full-match relation). -/

/-- Semantics of custom parameter regexps (regexp source, matched text). -/
abbrev CustomSem := Str → Str → Prop

/-- Captures of a match: one entry per parameter key; `none` when the
group did not participate in the match. -/
abbrev Caps := List (Option Str)

/-- Lower-case a string: models the `i` regexp flag on static text. -/
def lowerStr (s : Str) : Str := s.map Char.toLower

/-- A static token's text matched against a chunk of the path. -/
def staticMatches (sensitive : Bool) (value s : Str) : Prop :=
  if sensitive then s = value else lowerStr s = lowerStr value

/-- One occurrence of a parameter pattern: the default `[^/]+?` matches a
nonempty slash-free chunk, a custom regexp matches per `sem`. -/
def pieceMatches (sem : CustomSem) (regexp : Str) (s : Str) : Prop :=
  let re := if regexp = [] then BASE_PARAM_PATTERN else regexp
  if re = BASE_PARAM_PATTERN then s ≠ [] ∧ '/' ∉ s else sem re s

/-- Join strings with a slash separator (JavaScript `Array.join('/')`). -/
def joinSlash : List Str → Str
  | [] => []
  | [s] => s
  | s :: rest => s ++ '/' :: joinSlash rest

/-- Text captured by a parameter group: `(re)` for a plain parameter,
`((?:re)(?:/(?:re))*)` for a repeatable one. -/
def groupMatches (sem : CustomSem) (regexp : Str) (repeatable : Bool) (g : Str) : Prop :=
  if repeatable then
    ∃ parts : List Str, parts ≠ [] ∧ (∀ p ∈ parts, pieceMatches sem regexp p) ∧ g = joinSlash parts
  else pieceMatches sem regexp g

/-- Chunk of the path consumed by one token together with the captures it
produces.  `first` marks the first token of a segment (which carries the
leading slash); `segLen` is the token count of the enclosing segment, used by
the source to decide whether an optional first parameter absorbs its slash. -/
def tokMatches (sem : CustomSem) (sensitive : Bool) (first : Bool) (segLen : Nat) :
    Token → Str → Caps → Prop
  | .static v, c, caps =>
    caps = [] ∧
      (if first then ∃ s, c = '/' :: s ∧ staticMatches sensitive v s
       else staticMatches sensitive v c)
  | .param _ regexp repeatable opt, c, caps =>
    if first then
      if opt ∧ segLen < 2 then
        (c = [] ∧ caps = [none]) ∨
          ∃ g, groupMatches sem regexp repeatable g ∧ c = '/' :: g ∧ caps = [some g]
      else
        (opt ∧ c = ['/'] ∧ caps = [none]) ∨
          ∃ g, groupMatches sem regexp repeatable g ∧ c = '/' :: g ∧ caps = [some g]
    else
      (opt ∧ c = [] ∧ caps = [none]) ∨
        ∃ g, groupMatches sem regexp repeatable g ∧ c = g ∧ caps = [some g]

/-- Chunk consumed by a list of tokens of one segment. -/
inductive toksMatch (sem : CustomSem) (sensitive : Bool) (segLen : Nat) :
    Bool → List Token → Str → Caps → Prop where
  | nil (first : Bool) : toksMatch sem sensitive segLen first [] [] []
  | cons {first : Bool} {tok : Token} {rest : List Token} {c s : Str} {cs caps : Caps} :
      tokMatches sem sensitive first segLen tok c cs →
      toksMatch sem sensitive segLen false rest s caps →
      toksMatch sem sensitive segLen first (tok :: rest) (c ++ s) (cs ++ caps)

/-- Chunk consumed by the whole segment list.  A segment without tokens
contributes a bare slash in strict mode and nothing otherwise, exactly as in
the pattern construction of `tokensToParser`. -/
inductive segsMatch (sem : CustomSem) (sensitive strict : Bool) :
    List (List Token) → Str → Caps → Prop where
  | nil : segsMatch sem sensitive strict [] [] []
  | consEmpty {rest : List (List Token)} {s : Str} {caps : Caps} :
      segsMatch sem sensitive strict rest s caps →
      segsMatch sem sensitive strict ([] :: rest)
        ((if strict then ['/'] else []) ++ s) caps
  | cons {seg : List Token} {rest : List (List Token)} {c s : Str} {cs caps : Caps} :
      seg ≠ [] →
      toksMatch sem sensitive seg.length true seg c cs →
      segsMatch sem sensitive strict rest s caps →
      segsMatch sem sensitive strict (seg :: rest) (c ++ s) (cs ++ caps)

/-- The path `p` is matched by the regexp compiled from `segments` (with the
default `start`/`end` anchors) producing captures `caps`: non-strict mode
additionally accepts one trailing slash. -/
def reMatches (sem : CustomSem) (opts : PathParserOptions)
    (segments : List (List Token)) (p : Str) (caps : Caps) : Prop :=
  ∃ core, segsMatch sem opts.sensitive opts.strict segments core caps ∧
    (if opts.strict then p = core else p = core ∨ p = core ++ ['/'])

/-! ## `parse` and `stringify` (`pathParserRanker.ts`) -/

/-- A parameter value: a plain string or (for repeatable parameters) an
array of strings. -/
inductive ParamValue where
  | str (s : Str)
  | arr (l : List Str)
  deriving DecidableEq, Repr

/-- The params object, a JavaScript object keyed by parameter name. -/
abbrev Params := List (Str × ParamValue)

/-- Object property lookup. -/
def getParam : Params → Str → Option ParamValue
  | [], _ => none
  | (k, v) :: rest, name => if k = name then some v else getParam rest name

/-- Object property assignment (overwrites an existing key). -/
def setParam (ps : Params) (k : Str) (v : ParamValue) : Params :=
  if (ps.find? (fun kv => kv.1 = k)).isSome then
    ps.map (fun kv => if kv.1 = k then (k, v) else kv)
  else ps ++ [(k, v)]

/-- JavaScript `value.split('/')`. -/
def splitSlash : Str → List Str
  | [] => [[]]
  | c :: rest =>
    let r := splitSlash rest
    if c = '/' then [] :: r
    else
      match r with
      | h :: t => (c :: h) :: t
      | [] => [[c]]

/-- The value `parse` stores for one key:
`params[key.name] = value && key.repeatable ? value.split('/') : value`,
where a missing capture reads as the empty string. -/
def paramValueOf (key : PathParserParamKey) (cap : Option Str) : ParamValue :=
  let value := cap.getD []
  if value ≠ [] ∧ key.repeatable then .arr (splitSlash value) else .str value

/-- The capture-to-params loop of `parse` (the regexp match itself is
modelled by `reMatches`; this converts its captures). -/
def parseCapsAux : List PathParserParamKey → Caps → Params → Params
  | [], _, ps => ps
  | _, [], ps => ps
  | k :: ks, c :: cs, ps => parseCapsAux ks cs (setParam ps k.name (paramValueOf k c))

/-- Params produced by `parse` from the captures of a successful match. -/
def parseCaps (keys : List PathParserParamKey) (caps : Caps) : Params :=
  parseCapsAux keys caps []

/-- Failures of `stringify`. -/
inductive StringifyError where
  | missingParam (name : Str)
  | nonRepeatableArray (name : Str)
  deriving DecidableEq, Repr

/-- Whether a parameter value is an array. -/
def isArrV : ParamValue → Bool
  | .arr _ => true
  | .str _ => false

/-- Text contributed by a parameter value (arrays joined by slashes). -/
def textOf : ParamValue → Str
  | .arr l => joinSlash l
  | .str s => s

/-- JavaScript `path.endsWith('/')`. -/
def endsWithSlash (s : Str) : Bool := s.getLast? = some '/'

/-- The token loop of `stringify` for one segment: `path` is the accumulated
output, `avoid` the `avoidDuplicatedSlash` flag, `segLen` the token count of
the segment (`segment.length` in the source). -/
def stringifyTokens (params : Params) (segLen : Nat) :
    List Token → Str → Bool → Except StringifyError (Str × Bool)
  | [], path, avoid => .ok (path, avoid)
  | .static v :: rest, path, avoid => stringifyTokens params segLen rest (path ++ v) avoid
  | .param value _ repeatable opt :: rest, path, avoid =>
    let param := (getParam params value).getD (.str [])
    if isArrV param ∧ ¬repeatable then .error (.nonRepeatableArray value)
    else
      let text := textOf param
      if text = [] then
        if opt then
          if segLen < 2 then
            if endsWithSlash path then stringifyTokens params segLen rest path.dropLast avoid
            else stringifyTokens params segLen rest path true
          else stringifyTokens params segLen rest path avoid
        else .error (.missingParam value)
      else stringifyTokens params segLen rest (path ++ text) avoid

/-- The segment loop of `stringify`. -/
def stringifySegs (params : Params) :
    List (List Token) → Str → Bool → Except StringifyError Str
  | [], path, _ => .ok path
  | seg :: rest, path, avoid => do
    let path := if !avoid || !endsWithSlash path then path ++ ['/'] else path
    let r ← stringifyTokens params seg.length seg path false
    stringifySegs params rest r.1 r.2

/-- `stringify` of the source: params to a path, or an error for a missing
required parameter or an array supplied for a non-repeatable one. -/
def stringify (segments : List (List Token)) (params : Params) : Except StringifyError Str := do
  let path ← stringifySegs params segments [] false
  .ok (if path = [] then ['/'] else path)

/-! ## In-memory history backend (`memory.ts`)

The listener list and the `destroy` / `createHref` members carry no state
relevant to any claim and are not modelled; `position` is an `Int` because
`replace` transiently decrements it below zero before `setLocation`
increments it back (`queue.splice(position--, 1)`). -/

/-- `START`: the initial history location. -/
def START : String := ""

/-- State of `createMemoryHistory`: the explicit entry queue and the
position cursor. -/
structure MemoryHistory where
  queue : List String
  position : Int
  deriving DecidableEq, Repr

/-- A fresh in-memory history. -/
def createMemoryHistory : MemoryHistory := { queue := [START], position := 0 }

/-- `setLocation` of the source: advance the cursor, drop any forward
entries, append the new entry. -/
def setLocation (s : MemoryHistory) (entry : String) : MemoryHistory :=
  let position := s.position + 1
  let queue := if position ≠ (s.queue.length : Int) then s.queue.take position.toNat else s.queue
  { queue := queue ++ [entry], position := position }

/-- `push` of the in-memory backend. -/
def MemoryHistory.push (s : MemoryHistory) (entry : String) : MemoryHistory :=
  setLocation s entry

/-- `replace` of the in-memory backend: `queue.splice(position--, 1)` then
`setLocation(to)`. -/
def MemoryHistory.replace (s : MemoryHistory) (entry : String) : MemoryHistory :=
  setLocation { queue := s.queue.eraseIdx s.position.toNat, position := s.position - 1 } entry

/-- `go` of the in-memory backend: clamp the cursor into
`[0, queue.length - 1]` (listener notification not modelled). -/
def MemoryHistory.go (s : MemoryHistory) (delta : Int) : MemoryHistory :=
  { s with position := max 0 (min (s.position + delta) ((s.queue.length : Int) - 1)) }

/-- The `location` getter: `queue[position]`. -/
def MemoryHistory.location (s : MemoryHistory) : String :=
  s.queue.getD s.position.toNat START

/-! ## Route records and location equality (`location.ts`)

Route records are modelled arena-style: each record carries a stable
identifier, and the `aliasOf` back-reference holds the identifier of the
canonical record (`===` on records becomes equality of identifiers).  The
`redirect` field keeps the literal path form of a record-declared redirect,
the only form the claims exercise. -/

/-- A normalized route record (the fields read by the claims). -/
structure RouteRecord where
  id : Nat
  aliasOf : Option Nat := none
  redirect : Option String := none
  deriving DecidableEq, Repr

/-- `a.aliasOf || a` of the source: the canonical record's identity. -/
def originalOf (r : RouteRecord) : Nat :=
  match r.aliasOf with
  | some i => i
  | none => r.id

/-- `isSameRouteRecord` of the source: compare the canonical records. -/
def isSameRouteRecord (a b : RouteRecord) : Bool :=
  originalOf a = originalOf b

/-- Query objects are opaque to the equality check: `isSameRouteLocation`
only compares their images under the caller-supplied `stringifyQuery`. -/
abbrev Query := List (String × String)

/-- A resolved route location (the fields read by the claims). -/
structure RouteLocation where
  matched : List RouteRecord
  params : Params
  query : Query
  hash : String
  deriving DecidableEq, Repr

/-- `isEquivalentArray` of the source, with the right operand possibly a
missing property (`undefined`). -/
def isEquivalentArray (a : List Str) (b : Option ParamValue) : Bool :=
  match b with
  | some (.arr l) => a = l
  | some (.str s) => a.length = 1 ∧ a.head? = some s
  | none => false

/-- `isSameRouteLocationParamsValue` of the source. -/
def isSameRouteLocationParamsValue (a : ParamValue) (b : Option ParamValue) : Bool :=
  match a with
  | .arr l => isEquivalentArray l b
  | .str s =>
    match b with
    | some (.arr l) => isEquivalentArray l (some (.str s))
    | some (.str s2) => s = s2
    | none => false

/-- `isSameRouteLocationParams` of the source (params objects have unique
keys, so `Object.keys(a).length` is the entry count). -/
def isSameRouteLocationParams (a b : Params) : Bool :=
  a.length = b.length && a.all fun kv => isSameRouteLocationParamsValue kv.2 (getParam b kv.1)

/-- `isSameRouteLocation` of the source: same deepest matched record, same
params, same stringified query, same hash. -/
def isSameRouteLocation (sq : Query → String) (a b : RouteLocation) : Bool :=
  let aLastIndex : Int := (a.matched.length : Int) - 1
  let bLastIndex : Int := (b.matched.length : Int) - 1
  decide (-1 < aLastIndex) && decide (aLastIndex = bLastIndex) &&
    (match a.matched.getLast?, b.matched.getLast? with
     | some ra, some rb => isSameRouteRecord ra rb
     | _, _ => false) &&
    isSameRouteLocationParams a.params b.params &&
    decide (sq a.query = sq b.query) && decide (a.hash = b.hash)

/-! ## Navigation orchestrator (`router.ts` `pushWithRedirect` / `navigate`)

The promise pipeline of `pushWithRedirect` is interpreted sequentially.
Collaborator subsystems are abstracted behind a configuration record: the
matcher's `resolve` is an opaque function from raw path to resolved
location, and the guard queues that `navigate` extracts from the matched
records are given per navigation as lists of guard outcomes.  Effects
(scroll handling, `afterEach` guards, error handlers, the committed current
route) are accumulated in an explicit state.  The recursion of
`pushWithRedirect` through redirect records and guard redirects is unbounded
in the source, so the interpreter takes fuel and reports exhaustion as a
distinguished outcome. -/

/-- A raw navigation target: the path and the `force` option. -/
structure RawLocation where
  loc : String
  force : Bool := false
  deriving DecidableEq, Repr

/-- Modelled from the spec: the navigation-failure kinds of the error
taxonomy (`errors.ts` is not part of the sources; spec section 7 lists
`NavigationAborted`, `NavigationCancelled`, `NavigationDuplicated` and
`NavigationGuardRedirect` as the classified failures). -/
inductive ErrorTypes where
  | aborted
  | cancelled
  | duplicated
  | guardRedirect
  deriving DecidableEq, Repr

/-- Modelled from the spec: a classified navigation failure value
(`createRouterError` of `errors.ts`); `redirectTo` carries the target of a
`guardRedirect` failure. -/
structure NavigationFailure where
  type : ErrorTypes
  fromLoc : RouteLocation
  toLoc : RouteLocation
  redirectTo : Option RawLocation := none
  deriving DecidableEq, Repr

/-- A rejection value of the navigation promise chain. -/
inductive NavError where
  | failure (f : NavigationFailure)
  | infiniteRedirect
  | guardException (msg : String)
  | outOfFuel
  deriving DecidableEq, Repr

/-- Outcome of one user guard. -/
inductive GuardReturn where
  | proceed
  | abort
  | redirect (target : RawLocation)
  | exception (msg : String)
  deriving DecidableEq, Repr

/-- Modelled from the spec: `guardToPromiseFn` of `navigationGuards.ts` (not
part of the sources).  Spec section 4.4: no return or `true` advances,
`false` rejects with `NavigationAborted`, a location value rejects with
`NavigationGuardRedirect`, a thrown error propagates. -/
def guardToPromiseFn (g : GuardReturn) (toLoc fromLoc : RouteLocation) : Except NavError Unit :=
  match g with
  | .proceed => .ok ()
  | .abort => .error (.failure { type := .aborted, fromLoc := fromLoc, toLoc := toLoc })
  | .redirect r =>
    .error (.failure { type := .guardRedirect, fromLoc := fromLoc, toLoc := toLoc, redirectTo := some r })
  | .exception m => .error (.guardException m)

/-- `runGuardQueue`: chain the guards of one phase sequentially. -/
def runGuardQueue : List (Except NavError Unit) → Except NavError Unit
  | [] => .ok ()
  | g :: rest => do
    let _ ← g
    runGuardQueue rest

/-- `checkCanceledNavigation`: a navigation whose target no longer equals
`pendingLocation` has been superseded. -/
def checkCanceledNavigation (pending toLoc fromLoc : RouteLocation) : Option NavigationFailure :=
  if pending ≠ toLoc then some { type := .cancelled, fromLoc := fromLoc, toLoc := toLoc } else none

/-- `checkCanceledNavigationAndReject`. -/
def checkCanceledNavigationAndReject (pending toLoc fromLoc : RouteLocation) : Except NavError Unit :=
  match checkCanceledNavigation pending toLoc fromLoc with
  | some f => .error (.failure f)
  | none => .ok ()

/-- One phase of `navigate`: the phase's guard queue followed by the
cancellation check. -/
def navigateStep (pending toLoc fromLoc : RouteLocation) (acc : Except NavError Unit)
    (phase : List GuardReturn) : Except NavError Unit := do
  let _ ← acc
  let _ ← runGuardQueue (phase.map (fun g => guardToPromiseFn g toLoc fromLoc))
  checkCanceledNavigationAndReject pending toLoc fromLoc

/-- `navigate` of the source: run the guard phases in order, a cancellation
check closing each phase; a rejection with `NAVIGATION_CANCELLED` is
resolved with the failure value, every other rejection propagates. -/
def navigate (phases : List (List GuardReturn)) (pending toLoc fromLoc : RouteLocation) :
    Except NavError (Option NavigationFailure) :=
  match phases.foldl (navigateStep pending toLoc fromLoc) (.ok ()) with
  | .ok () => .ok none
  | .error (.failure f) => if f.type = .cancelled then .ok (some f) else .error (.failure f)
  | .error e => .error e

/-- Configuration of the orchestrator model: the matcher's `resolve`, the
guard queues `navigate` runs for a navigation, the query stringifier and the
`__DEV__` flag. -/
structure RouterConfig where
  resolveFn : String → RouteLocation
  guardsFor : RouteLocation → RouteLocation → List (List GuardReturn)
  sq : Query → String
  dev : Bool := true

/-- Orchestrator state: the committed route, the pending location, and the
recorded effects (scroll runs, `afterEach` invocations, errors handed to the
error handlers). -/
structure RouterState where
  currentRoute : RouteLocation
  pendingLocation : RouteLocation
  scrollCalls : List (RouteLocation × RouteLocation) := []
  afterEachCalls : List (RouteLocation × RouteLocation × Option NavigationFailure) := []
  errorCalls : List NavError := []
  deriving DecidableEq, Repr

/-- `handleRedirectRecord` of the source, for the literal-path redirect form
the claims exercise: the deepest matched record's `redirect`, if any. -/
def handleRedirectRecord (toLoc : RouteLocation) : Option String :=
  match toLoc.matched.getLast? with
  | some lastMatched => lastMatched.redirect
  | none => none

/-- `finalizeNavigation` of the source: re-check cancellation, commit the
location and run the scroll step (the history mutation itself belongs to the
separately modelled history backend). -/
def finalizeNavigation (st : RouterState) (toLocation fromLoc : RouteLocation) :
    RouterState × Option NavigationFailure :=
  match checkCanceledNavigation st.pendingLocation toLocation fromLoc with
  | some err => (st, some err)
  | none =>
    ({ st with currentRoute := toLocation,
               scrollCalls := st.scrollCalls ++ [(toLocation, fromLoc)] }, none)

/-- `triggerAfterEach` of the source: invoke every registered after guard
with the outcome. -/
def triggerAfterEach (st : RouterState) (toLoc fromLoc : RouteLocation)
    (failure : Option NavigationFailure) : RouterState :=
  { st with afterEachCalls := st.afterEachCalls ++ [(toLoc, fromLoc, failure)] }

/-- `pushWithRedirect` of the source, with the promise chain interpreted
sequentially.  `redirectedFrom` carries the original target of a redirect
chain together with its `_count` field (the dev-mode guard-redirect counter
the source stores on that object). -/
def pushWithRedirect (cfg : RouterConfig) :
    Nat → RouterState → RawLocation → Option (RouteLocation × Nat) →
    RouterState × Except NavError (Option NavigationFailure)
  | 0, st, _, _ => (st, .error .outOfFuel)
  | fuel + 1, st, toRaw, redirectedFrom =>
    let targetLocation := cfg.resolveFn toRaw.loc
    let st := { st with pendingLocation := targetLocation }
    let fromLoc := st.currentRoute
    let force := toRaw.force
    match handleRedirectRecord targetLocation with
    | some shouldRedirect =>
      pushWithRedirect cfg fuel st { loc := shouldRedirect, force := force }
        (match redirectedFrom with
         | some rf => some rf
         | none => some (targetLocation, 0))
    | none =>
      let toLocation := targetLocation
      let dup := !force && isSameRouteLocation cfg.sq fromLoc targetLocation
      let stepped :=
        if dup then
          ({ st with scrollCalls := st.scrollCalls ++ [(fromLoc, fromLoc)] },
           some { type := .duplicated, fromLoc := fromLoc, toLoc := toLocation })
        else (st, (none : Option NavigationFailure))
      let st := stepped.1
      let navRes : Except NavError (Option NavigationFailure) :=
        match stepped.2 with
        | some f => .ok (some f)
        | none =>
          match navigate (cfg.guardsFor toLocation fromLoc) st.pendingLocation toLocation fromLoc with
          | .ok v => .ok v
          | .error (.failure f) => .ok (some f)
          | .error e => .error e
      match navRes with
      | .error e => ({ st with errorCalls := st.errorCalls ++ [e] }, .error e)
      | .ok failure =>
        match failure with
        | some f =>
          if f.type = .guardRedirect then
            let redirectTarget := f.redirectTo.getD { loc := "" }
            let sameLoc :=
              cfg.dev && isSameRouteLocation cfg.sq (cfg.resolveFn redirectTarget.loc) toLocation
            let counted :=
              if sameLoc then
                match redirectedFrom with
                | some rf => (some (rf.1, rf.2 + 1), decide (30 < rf.2 + 1))
                | none => ((none : Option (RouteLocation × Nat)), false)
              else (redirectedFrom, false)
            if counted.2 then (st, .error .infiniteRedirect)
            else
              pushWithRedirect cfg fuel st { loc := redirectTarget.loc, force := force }
                (match counted.1 with
                 | some rf => some rf
                 | none => some (toLocation, 0))
          else
            (triggerAfterEach st toLocation fromLoc (some f), .ok (some f))
        | none =>
          let fin := finalizeNavigation st toLocation fromLoc
          (triggerAfterEach fin.1 toLocation fromLoc fin.2, .ok fin.2)

/-! ## Auxiliary definitions for the statements -/

/-- The score-array comparator exactly as the specification words it: purely
lexicographic, and on an equal shared prefix the shorter list sorts first
only when the lengths differ by exactly one and the shorter list is the
single bare static-plus-segment score; otherwise the longer list sorts
first.  Stated for comparison against `compareScoreArray`. -/
def compareScoreArraySpec (a b : List ℚ) : ℚ :=
  match firstNonzeroDiff a b with
  | some d => d
  | none =>
    if a.length = b.length then 0
    else
      let shorter := if a.length < b.length then a else b
      if ((b.length : Int) - (a.length : Int)).natAbs = 1 ∧
          shorter = [PathScore.Static + PathScore.Segment] then
        if a.length < b.length then -1 else 1
      else
        if a.length < b.length then 1 else -1

/-- A custom-regexp semantics for patterns without custom regexps. -/
def semNone : CustomSem := fun _ _ => False

/-- Resolution by path over a rank-ordered matcher list: the first pattern
whose regexp matches is selected. -/
def resolvesTo (sem : CustomSem) (opts : PathParserOptions)
    (patterns : List (List (List Token))) (p : Str) (chosen : List (List Token)) : Prop :=
  ∃ pre post, patterns = pre ++ chosen :: post ∧
    (∃ caps, reMatches sem opts chosen p caps) ∧
    ∀ q ∈ pre, ∀ caps, ¬ reMatches sem opts q p caps

/-- First guard outcome of the pipeline that is not a plain advance, in
phase order. -/
def firstBlocking (phases : List (List GuardReturn)) : Option GuardReturn :=
  phases.flatten.find? (fun g => !(g == GuardReturn.proceed))

/-- The params object binds each listed key to the parsed form of the
corresponding capture. -/
def BindOK (params : Params) : List PathParserParamKey → Caps → Prop
  | [], [] => True
  | k :: ks, c :: cs => getParam params k.name = some (paramValueOf k c) ∧ BindOK params ks cs
  | _, _ => False

/-- The association list built by binding each key to the parsed form of
its capture, in order (the shape `parseCaps` takes on distinct names). -/
def zipParams (keys : List PathParserParamKey) (caps : Caps) : Params :=
  (keys.zip caps).map (fun p => (p.1.name, paramValueOf p.1 p.2))

/-- No parameter of the pattern whose token is non-repeatable is supplied
an array value. -/
def NoBadArray (params : Params) (segments : List (List Token)) : Prop :=
  ∀ seg ∈ segments, ∀ tok ∈ seg, ∀ n rx opt, tok = Token.param n rx false opt →
    ∀ l, getParam params n ≠ some (ParamValue.arr l)

/-- Some required (non-optional) parameter of the pattern is absent from the
params input. -/
def HasAbsentRequired (params : Params) (segments : List (List Token)) : Prop :=
  ∃ seg ∈ segments, ∃ n rx rep, Token.param n rx rep false ∈ seg ∧ getParam params n = none

/-- Every required parameter of the pattern is supplied a value with
nonempty text. -/
def RequiredPresent (params : Params) (segments : List (List Token)) : Prop :=
  ∀ seg ∈ segments, ∀ n rx rep, Token.param n rx rep false ∈ seg →
    ∃ v, getParam params n = some v ∧ textOf v ≠ []

/-- Some non-repeatable parameter of the pattern is supplied an array
value. -/
def HasNonRepeatableArray (params : Params) (segments : List (List Token)) : Prop :=
  ∃ seg ∈ segments, ∃ n rx opt l, Token.param n rx false opt ∈ seg ∧
    getParam params n = some (ParamValue.arr l)

/-- Fixture: a location whose single matched record is `r`. -/
def locOf (r : RouteRecord) : RouteLocation :=
  { matched := [r], params := [], query := [], hash := "" }

/-- Fixture: the start location (nothing matched). -/
def startLocation : RouteLocation :=
  { matched := [], params := [], query := [], hash := "" }

/-- Fixture: the router state before any navigation. -/
def initialState : RouterState :=
  { currentRoute := startLocation, pendingLocation := startLocation }

/-- Fixture: two records whose declared redirects form the cycle
`/a -> /b -> /a -> ...`; no guards. -/
def recordRedirectLoopConfig : RouterConfig :=
  { resolveFn := fun s =>
      if s = "/a" then locOf { id := 0, redirect := some "/b" }
      else if s = "/b" then locOf { id := 1, redirect := some "/a" }
      else startLocation
    guardsFor := fun _ _ => []
    sq := fun _ => "" }

/-- Fixture: a single record without redirect whose guard pipeline always
redirects to the navigation's own target `/c`. -/
def guardRedirectLoopConfig : RouterConfig :=
  { resolveFn := fun _ => locOf { id := 2 }
    guardsFor := fun _ _ => [[GuardReturn.redirect { loc := "/c" }]]
    sq := fun _ => "" }

/-! ## Theorems -/

theorem originalOf_eq (r : RouteRecord) : originalOf r = r.aliasOf.getD r.id := by
  cases h : r.aliasOf <;> simp [originalOf, h]

/-- C10: route-record equality used by duplicate detection identifies an
alias with its canonical record: `isSameRouteRecord a b` holds exactly when
`a.aliasOf` (or `a` itself) denotes the same record as `b.aliasOf` (or `b`);
it is reflexive and symmetric, and an alias compares equal to its
original. -/
theorem isSameRouteRecord_characterization :
    (∀ a b : RouteRecord,
        isSameRouteRecord a b = true ↔ a.aliasOf.getD a.id = b.aliasOf.getD b.id) ∧
    (∀ a : RouteRecord, isSameRouteRecord a a = true) ∧
    (∀ a b : RouteRecord, isSameRouteRecord a b = isSameRouteRecord b a) ∧
    (∀ a b : RouteRecord, b.aliasOf = some a.id → a.aliasOf = none →
        isSameRouteRecord a b = true) := by
  refine ⟨?_, ?_, ?_, ?_⟩
  · intro a b
    simp [isSameRouteRecord, originalOf_eq]
  · intro a
    simp [isSameRouteRecord]
  · intro a b
    simp [isSameRouteRecord]
    constructor <;> (intro h; exact h.symm)
  · intro a b hb ha
    simp [isSameRouteRecord, originalOf, hb, ha]

theorem isSameRouteRecord_characterization_witness :
    isSameRouteRecord { id := 0 } { id := 1, aliasOf := some 0 } = true :=
  isSameRouteRecord_characterization.2.2.2
    { id := 0 } { id := 1, aliasOf := some 0 } rfl rfl

theorem setLocation_spec (s : MemoryHistory) (e : String) :
    (setLocation s e).queue = s.queue.take (s.position + 1).toNat ++ [e] ∧
    (setLocation s e).position = s.position + 1 := by
  constructor
  · simp only [setLocation]
    by_cases h : s.position + 1 = (s.queue.length : Int)
    · have hn : (s.position + 1).toNat = s.queue.length := by omega
      rw [if_neg (not_not_intro h), hn, List.take_length]
    · rw [if_pos h]
  · simp [setLocation]

/-- C7: the in-memory backend is a branch-and-discard stack: `push` drops
the entries past the cursor before appending, `replace` substitutes the new
entry for the current one, `go` clamps the cursor into range, and the
`/a`, `/b`, `go (-1)`, `/c` scenario discards `/b` permanently. -/
theorem memoryHistory_branching_stack :
    (∀ (s : MemoryHistory) (e : String), 0 ≤ s.position →
        (s.push e).queue = s.queue.take (s.position + 1).toNat ++ [e] ∧
        (s.push e).position = s.position + 1) ∧
    (∀ (s : MemoryHistory) (e : String), 0 ≤ s.position →
        s.position < (s.queue.length : Int) →
        (s.replace e).queue = s.queue.take s.position.toNat ++ [e] ∧
        (s.replace e).position = s.position) ∧
    (∀ (s : MemoryHistory) (delta : Int), s.queue ≠ [] →
        0 ≤ (s.go delta).position ∧
        (s.go delta).position ≤ (s.queue.length : Int) - 1 ∧
        (0 ≤ s.position + delta → s.position + delta ≤ (s.queue.length : Int) - 1 →
          (s.go delta).position = s.position + delta)) ∧
    ((((createMemoryHistory.push "/a").push "/b").go (-1)).location = "/a" ∧
      ((((createMemoryHistory.push "/a").push "/b").go (-1)).push "/c").queue =
        [START, "/a", "/c"] ∧
      (((((createMemoryHistory.push "/a").push "/b").go (-1)).push "/c").go 1).location = "/c" ∧
      "/b" ∉ ((((createMemoryHistory.push "/a").push "/b").go (-1)).push "/c").queue) := by
  refine ⟨?_, ?_, ?_, by decide⟩
  · intro s e _
    exact setLocation_spec s e
  · intro s e h0 hlt
    have hn : (s.position.toNat : Int) = s.position := Int.toNat_of_nonneg h0
    have hnlt : s.position.toNat < s.queue.length := by omega
    have htake : (s.queue.eraseIdx s.position.toNat).take s.position.toNat =
        s.queue.take s.position.toNat := by
      rw [List.eraseIdx_eq_take_drop_succ, List.take_append_of_le_length, List.take_take]
      · simp
      · simp
        omega
    unfold MemoryHistory.replace
    have hs := setLocation_spec
      { queue := s.queue.eraseIdx s.position.toNat, position := s.position - 1 } e
    have hpos : s.position - 1 + 1 = s.position := by ring
    rw [hpos] at hs
    refine ⟨?_, hs.2⟩
    rw [hs.1]
    simp only []
    rw [htake]
  · intro s delta hne
    have hlen : 1 ≤ (s.queue.length : Int) := by
      have : s.queue.length ≠ 0 := by simpa using List.length_pos.mpr hne |>.ne'
      omega
    unfold MemoryHistory.go
    refine ⟨le_max_left _ _, ?_, ?_⟩
    · simp only [max_le_iff]
      constructor
      · omega
      · exact min_le_right _ _
    · intro h1 h2
      simp only []
      rw [min_eq_left h2, max_eq_right h1]

theorem memoryHistory_branching_stack_witness :
    (({ queue := ["", "/a", "/b"], position := 1 : MemoryHistory }).push "/x").queue =
        ["", "/a", "/x"] ∧
    (({ queue := ["", "/a", "/b"], position := 1 : MemoryHistory }).replace "/y").queue =
        ["", "/y"] ∧
    (({ queue := ["", "/a", "/b"], position := 1 : MemoryHistory }).go 5).position = 2 := by
  have h1 := memoryHistory_branching_stack.1
    { queue := ["", "/a", "/b"], position := 1 } "/x" (by decide)
  have h2 := memoryHistory_branching_stack.2.1
    { queue := ["", "/a", "/b"], position := 1 } "/y" (by decide) (by decide)
  have h3 := memoryHistory_branching_stack.2.2.1
    { queue := ["", "/a", "/b"], position := 1 } 5 (by decide)
  refine ⟨?_, ?_, ?_⟩
  · rw [h1.1]; decide
  · rw [h2.1]; decide
  · have := h3.2.2
    decide

theorem firstNonzeroDiff_nil_left (b : List ℚ) : firstNonzeroDiff [] b = none := by
  cases b <;> rfl

theorem firstNonzeroDiff_nil_right (a : List ℚ) : firstNonzeroDiff a [] = none := by
  cases a <;> rfl

theorem firstNonzeroDiff_cons_same (x : ℚ) (as bs : List ℚ) :
    firstNonzeroDiff (x :: as) (x :: bs) = firstNonzeroDiff as bs := by
  simp [firstNonzeroDiff]

theorem firstNonzeroDiff_append_cons (pre : List ℚ) (x y : ℚ) (as bs : List ℚ) (h : x ≠ y) :
    firstNonzeroDiff (pre ++ x :: as) (pre ++ y :: bs) = some (y - x) := by
  induction pre with
  | nil =>
    simp [firstNonzeroDiff, sub_ne_zero_of_ne (Ne.symm h)]
  | cons p pre ih =>
    simpa [firstNonzeroDiff_cons_same] using ih

theorem firstNonzeroDiff_prefix_right (pre rest : List ℚ) :
    firstNonzeroDiff pre (pre ++ rest) = none := by
  induction pre with
  | nil => exact firstNonzeroDiff_nil_left _
  | cons p pre ih => simpa [firstNonzeroDiff_cons_same] using ih

theorem firstNonzeroDiff_prefix_left (pre rest : List ℚ) :
    firstNonzeroDiff (pre ++ rest) pre = none := by
  induction pre with
  | nil => exact firstNonzeroDiff_nil_right _
  | cons p pre ih => simpa [firstNonzeroDiff_cons_same] using ih

theorem firstNonzeroDiff_isSome_ne (a b : List ℚ) (d : ℚ)
    (h : firstNonzeroDiff a b = some d) : d ≠ 0 := by
  induction a generalizing b with
  | nil => rw [firstNonzeroDiff_nil_left] at h; cases h
  | cons x as ih =>
    cases b with
    | nil => rw [firstNonzeroDiff_nil_right] at h; cases h
    | cons y bs =>
      simp only [firstNonzeroDiff] at h
      by_cases hd : y - x ≠ 0
      · rw [if_pos hd] at h
        obtain rfl : y - x = d := by injection h
        exact hd
      · rw [if_neg hd] at h
        exact ih bs h

theorem firstNonzeroDiff_none_eq (a b : List ℚ) (hlen : a.length = b.length)
    (h : firstNonzeroDiff a b = none) : a = b := by
  induction a generalizing b with
  | nil => cases b with
    | nil => rfl
    | cons y bs => simp at hlen
  | cons x as ih =>
    cases b with
    | nil => simp at hlen
    | cons y bs =>
      by_cases hd : y - x = 0
      · have hxy : x = y := by linarith [sub_eq_zero.mp hd]
        subst hxy
        rw [firstNonzeroDiff_cons_same] at h
        simp at hlen
        rw [ih bs hlen h]
      · simp [firstNonzeroDiff, hd] at h

theorem firstNonzeroDiff_self (a : List ℚ) : firstNonzeroDiff a a = none := by
  simpa using firstNonzeroDiff_prefix_right a []

theorem compareScoreArray_self (a : List ℚ) : compareScoreArray a a = 0 := by
  unfold compareScoreArray
  rw [firstNonzeroDiff_self]
  simp

theorem compareScoreArray_eq_zero_iff (a b : List ℚ) :
    compareScoreArray a b = 0 ↔ a = b := by
  constructor
  · intro h
    unfold compareScoreArray at h
    cases hd : firstNonzeroDiff a b with
    | some d =>
      rw [hd] at h
      exact absurd h (firstNonzeroDiff_isSome_ne a b d hd)
    | none =>
      rw [hd] at h
      by_cases h1 : a.length < b.length
      · rw [if_pos h1] at h
        by_cases h2 : a.length = 1 ∧ a.head? = some (PathScore.Static + PathScore.Segment)
        · rw [if_pos h2] at h; norm_num at h
        · rw [if_neg h2] at h; norm_num at h
      · rw [if_neg h1] at h
        by_cases h3 : b.length < a.length
        · rw [if_pos h3] at h
          by_cases h4 : b.length = 1 ∧ b.head? = some (PathScore.Static + PathScore.Segment)
          · rw [if_pos h4] at h; norm_num at h
          · rw [if_neg h4] at h; norm_num at h
        · exact firstNonzeroDiff_none_eq a b (by omega) hd
  · rintro rfl
    exact compareScoreArray_self a

theorem firstNonzeroComp_cons_same (x : List ℚ) (as bs : List (List ℚ)) :
    firstNonzeroComp (x :: as) (x :: bs) = firstNonzeroComp as bs := by
  simp [firstNonzeroComp, compareScoreArray_self]

theorem firstNonzeroComp_prefix_right (pre rest : List (List ℚ)) :
    firstNonzeroComp pre (pre ++ rest) = none := by
  induction pre with
  | nil => cases rest <;> rfl
  | cons p pre ih => simpa [firstNonzeroComp_cons_same] using ih

theorem firstNonzeroComp_prefix_left (pre rest : List (List ℚ)) :
    firstNonzeroComp (pre ++ rest) pre = none := by
  induction pre with
  | nil => cases rest <;> rfl
  | cons p pre ih => simpa [firstNonzeroComp_cons_same] using ih

theorem firstNonzeroComp_self (a : List (List ℚ)) : firstNonzeroComp a a = none := by
  simpa using firstNonzeroComp_prefix_right a []

theorem firstNonzeroComp_append_cons (pre : List (List ℚ)) (x y : List ℚ)
    (as bs : List (List ℚ)) (h : compareScoreArray x y ≠ 0) :
    firstNonzeroComp (pre ++ x :: as) (pre ++ y :: bs) = some (compareScoreArray x y) := by
  induction pre with
  | nil => simp [firstNonzeroComp, h]
  | cons p pre ih => simpa [firstNonzeroComp_cons_same] using ih

/-- C2 (amended): the inner comparator is lexicographic on the common
prefix; on an equal shared prefix the shorter list sorts first exactly when
it is the single bare static-plus-segment score, whatever the length
difference; the outer comparator is lexicographic over the inner one and,
when every shared segment ties, puts a list whose final score is negative
last when the lengths differ by exactly one, and otherwise the longer list
first. -/
theorem comparator_characterization :
    (∀ (pre : List ℚ) (x y : ℚ) (as bs : List ℚ), x ≠ y →
        compareScoreArray (pre ++ x :: as) (pre ++ y :: bs) = y - x) ∧
    (∀ (pre rest : List ℚ), rest ≠ [] →
        compareScoreArray pre (pre ++ rest) =
          (if pre = [PathScore.Static + PathScore.Segment] then -1 else 1)) ∧
    (∀ (pre rest : List ℚ), rest ≠ [] →
        compareScoreArray (pre ++ rest) pre =
          (if pre = [PathScore.Static + PathScore.Segment] then 1 else -1)) ∧
    (∀ a : List ℚ, compareScoreArray a a = 0) ∧
    (∀ (pre : List (List ℚ)) (x y : List ℚ) (as bs : List (List ℚ)),
        compareScoreArray x y ≠ 0 →
        comparePathParserScore (pre ++ x :: as) (pre ++ y :: bs) = compareScoreArray x y) ∧
    (∀ (pre rest : List (List ℚ)), rest ≠ [] →
        comparePathParserScore pre (pre ++ rest) =
          (if rest.length = 1 ∧ isLastScoreNegative pre then 1
           else if rest.length = 1 ∧ isLastScoreNegative (pre ++ rest) then -1
           else (rest.length : ℚ))) ∧
    (∀ (pre rest : List (List ℚ)), rest ≠ [] →
        comparePathParserScore (pre ++ rest) pre =
          (if rest.length = 1 ∧ isLastScoreNegative (pre ++ rest) then 1
           else if rest.length = 1 ∧ isLastScoreNegative pre then -1
           else -(rest.length : ℚ))) ∧
    (∀ a : List (List ℚ), comparePathParserScore a a = 0) := by
  have hhead : ∀ (l : List ℚ), (l.length = 1 ∧
      l.head? = some (PathScore.Static + PathScore.Segment)) ↔
      l = [PathScore.Static + PathScore.Segment] := by
    intro l
    cases l with
    | nil => simp
    | cons x xs => cases xs <;> simp
  refine ⟨?_, ?_, ?_, compareScoreArray_self, ?_, ?_, ?_, ?_⟩
  · intro pre x y as bs h
    unfold compareScoreArray
    rw [firstNonzeroDiff_append_cons pre x y as bs h]
  · intro pre rest h
    unfold compareScoreArray
    rw [firstNonzeroDiff_prefix_right]
    have hlt : pre.length < (pre ++ rest).length := by
      simp [List.length_append]
      exact List.length_pos.mpr h
    rw [if_pos hlt]
    by_cases hp : pre = [PathScore.Static + PathScore.Segment]
    · rw [if_pos ((hhead pre).mpr hp), if_pos hp]
    · rw [if_neg (fun hc => hp ((hhead pre).mp hc)), if_neg hp]
  · intro pre rest h
    unfold compareScoreArray
    rw [firstNonzeroDiff_prefix_left]
    have hlt : pre.length < (pre ++ rest).length := by
      simp [List.length_append]
      exact List.length_pos.mpr h
    rw [if_neg (by omega), if_pos hlt]
    by_cases hp : pre = [PathScore.Static + PathScore.Segment]
    · rw [if_pos ((hhead pre).mpr hp), if_pos hp]
    · rw [if_neg (fun hc => hp ((hhead pre).mp hc)), if_neg hp]
  · intro pre x y as bs h
    unfold comparePathParserScore
    rw [firstNonzeroComp_append_cons pre x y as bs h]
  · intro pre rest h
    unfold comparePathParserScore
    rw [firstNonzeroComp_prefix_right]
    have hlen : ((pre ++ rest).length : Int) - (pre.length : Int) = (rest.length : Int) := by
      simp [List.length_append]
    by_cases h1 : rest.length = 1
    · have habs : (((pre ++ rest).length : Int) - (pre.length : Int)).natAbs = 1 := by
        rw [hlen, h1]; rfl
      rw [if_pos habs]
      by_cases h2 : isLastScoreNegative pre
      · simp [h2, h1]
      · simp only [h2, Bool.false_eq_true, if_false]
        by_cases h3 : isLastScoreNegative (pre ++ rest)
        · simp [h3, h2, h1]
        · simp only [h3, Bool.false_eq_true, if_false]
          simp [h3, h2, h1, List.length_append]
    · have habs : ¬ ((((pre ++ rest).length : Int) - (pre.length : Int)).natAbs = 1) := by
        rw [hlen]; omega
      rw [if_neg habs]
      simp [h1, List.length_append]
  · intro pre rest h
    unfold comparePathParserScore
    rw [firstNonzeroComp_prefix_left]
    have hlen : (pre.length : Int) - ((pre ++ rest).length : Int) = -(rest.length : Int) := by
      simp [List.length_append]
    by_cases h1 : rest.length = 1
    · have habs : ((pre.length : Int) - ((pre ++ rest).length : Int)).natAbs = 1 := by
        rw [hlen, h1]; rfl
      rw [if_pos habs]
      by_cases h2 : isLastScoreNegative (pre ++ rest)
      · simp [h2, h1]
      · simp only [h2, Bool.false_eq_true, if_false]
        by_cases h3 : isLastScoreNegative pre
        · simp [h3, h2, h1]
        · simp only [h3, Bool.false_eq_true, if_false]
          simp [h3, h2, h1, List.length_append]
    · have habs : ¬ (((pre.length : Int) - ((pre ++ rest).length : Int)).natAbs = 1) := by
        rw [hlen]; omega
      rw [if_neg habs]
      simp [h1, List.length_append]
  · intro a
    unfold comparePathParserScore
    rw [firstNonzeroComp_self]
    simp

theorem comparator_characterization_witness :
    compareScoreArray [(1 : ℚ), 3] [1, 2] = -1 ∧
    compareScoreArray [(80 : ℚ)] [80, 40] = -1 ∧
    compareScoreArray [(60 : ℚ)] [60, 40] = 1 ∧
    comparePathParserScore [[(80 : ℚ)], [60]] [[80], [80]] = 20 ∧
    comparePathParserScore [[(80 : ℚ)]] [[80], [60]] = 1 ∧
    comparePathParserScore [[(80 : ℚ)], [-50]] [[80], [-50], [40]] = 1 := by
  have hq80 : (80 : ℚ) = PathScore.Static + PathScore.Segment := by
    norm_num [PathScore.Static, PathScore.Segment, PathScore.multiplier]
  have hq60 : (60 : ℚ) ≠ PathScore.Static + PathScore.Segment := by
    norm_num [PathScore.Static, PathScore.Segment, PathScore.multiplier]
  have h60 : compareScoreArray [(60 : ℚ)] [80] = 20 := by
    have := comparator_characterization.1 ([] : List ℚ) 60 80 [] [] (by norm_num)
    have h' : compareScoreArray [(60 : ℚ)] [80] = 80 - 60 := this
    rw [h']
    norm_num
  have h1' : compareScoreArray [(1 : ℚ), 3] [1, 2] = 2 - 3 :=
    comparator_characterization.1 [(1 : ℚ)] 3 2 [] [] (by norm_num)
  have h2' : compareScoreArray [(80 : ℚ)] [80, 40] =
      (if [(80 : ℚ)] = [PathScore.Static + PathScore.Segment] then -1 else 1) :=
    comparator_characterization.2.1 [(80 : ℚ)] [40] (by simp)
  have h3' : compareScoreArray [(60 : ℚ)] [60, 40] =
      (if [(60 : ℚ)] = [PathScore.Static + PathScore.Segment] then -1 else 1) :=
    comparator_characterization.2.1 [(60 : ℚ)] [40] (by simp)
  have h4' : comparePathParserScore [[(80 : ℚ)], [60]] [[80], [80]] =
      compareScoreArray [60] [80] :=
    comparator_characterization.2.2.2.2.1 [[(80 : ℚ)]] [60] [80] [] []
      (by rw [h60]; norm_num)
  have h5' : comparePathParserScore [[(80 : ℚ)]] [[80], [60]] =
      (if [[(60 : ℚ)]].length = 1 ∧ isLastScoreNegative [[(80 : ℚ)]] then 1
       else if [[(60 : ℚ)]].length = 1 ∧ isLastScoreNegative [[(80 : ℚ)], [60]] then -1
       else ([[(60 : ℚ)]].length : ℚ)) :=
    comparator_characterization.2.2.2.2.2.1 [[(80 : ℚ)]] [[60]] (by simp)
  have h6' : comparePathParserScore [[(80 : ℚ)], [-50]] [[80], [-50], [40]] =
      (if [[(40 : ℚ)]].length = 1 ∧ isLastScoreNegative [[(80 : ℚ)], [-50]] then 1
       else if [[(40 : ℚ)]].length = 1 ∧
          isLastScoreNegative [[(80 : ℚ)], [-50], [40]] then -1
       else ([[(40 : ℚ)]].length : ℚ)) :=
    comparator_characterization.2.2.2.2.2.1 [[(80 : ℚ)], [-50]] [[40]] (by simp)
  refine ⟨?_, ?_, ?_, ?_, ?_, ?_⟩
  · rw [h1']
    norm_num
  · rw [h2', if_pos (by rw [hq80])]
  · rw [h3', if_neg]
    intro hc
    exact hq60 (by injection hc)
  · rw [h4', h60]
  · rw [h5']
    norm_num [isLastScoreNegative]
  · rw [h6']
    norm_num [isLastScoreNegative]

/-- C2 (counterexample): on the equal shared prefix `[80]` with a length
difference of two, `compareScoreArray` still sorts the bare
static-plus-segment list first, while the claim's tie-break (which demands a
length difference of exactly one) sorts the longer list first. -/
theorem comparator_claim_counterexample :
    compareScoreArray [(80 : ℚ)] [80, 80, 80] = -1 ∧
    compareScoreArraySpec [(80 : ℚ)] [80, 80, 80] = 1 ∧
    (80 : ℚ) = PathScore.Static + PathScore.Segment ∧
    [(80 : ℚ)] = [80, 80, 80].take 1 := by
  have hq80 : (80 : ℚ) = PathScore.Static + PathScore.Segment := by
    norm_num [PathScore.Static, PathScore.Segment, PathScore.multiplier]
  refine ⟨?_, ?_, hq80, by norm_num⟩
  · norm_num [compareScoreArray, firstNonzeroDiff, ← hq80]
  · norm_num [compareScoreArraySpec, firstNonzeroDiff, ← hq80]

/-- C9 (amended): consuming a parameter fails exactly when the modifier
character is `*` or `+` and the enclosing segment already holds more than
one token; an optional-only (`?`) parameter sharing its segment, or a
repeatable parameter with a single preceding token, tokenizes without
error.  Both behaviours are exhibited on concrete patterns. -/
theorem tokenizer_repeatable_alone_rule :
    (∀ st : TkState, st.buffer ≠ [] →
        (st.state = .Param ∨ st.state = .ParamRegExp ∨ st.state = .ParamRegExpEnd) →
        ((∃ msg, consumeBuffer st = .error msg) ↔
          (1 < (st.segment.getD []).length ∧ (st.char = '*' ∨ st.char = '+')))) ∧
    tokenizePath "/:a-:b+".data =
      Except.error "A repeatable param must be alone in its segment" ∧
    tokenizePath "/x-:a+".data =
      Except.ok [[Token.static "x-".data, Token.param "a".data [] true false]] := by
  refine ⟨?_, by rfl, by rfl⟩
  intro st hbuf hstate
  have hns : st.state ≠ .Static := by
    rcases hstate with h | h | h <;> simp [h]
  unfold consumeBuffer
  rw [if_neg (by simpa using hbuf), if_neg hns, if_pos hstate]
  constructor
  · intro hmsg
    by_cases hc : 1 < (st.segment.getD []).length ∧ (st.char = '*' ∨ st.char = '+')
    · exact hc
    · rw [if_neg hc] at hmsg
      obtain ⟨msg, hmsg⟩ := hmsg
      cases hmsg
  · intro hc
    rw [if_pos hc]
    exact ⟨_, rfl⟩

theorem tokenizer_repeatable_alone_rule_witness :
    ∃ msg,
      consumeBuffer
        { state := .Param, previousState := .Static,
          tokens := [],
          segment := some [Token.param "a".data [] false false, Token.static "-".data],
          i := 7, char := '+', buffer := "b".data, customRe := [] } = .error msg := by
  refine (tokenizer_repeatable_alone_rule.1 _ (by decide) (Or.inl rfl)).mpr ?_
  refine ⟨by decide, Or.inr rfl⟩

/-- C9 (counterexample): an optional (`?`) parameter sharing its segment
with a static token tokenizes successfully, while the claim requires a
`MalformedPatternError` whenever a repeatable or optional parameter shares a
segment with another token. -/
theorem tokenizer_optional_shared_segment_accepted :
    tokenizePath "/x-:a?".data =
      Except.ok [[Token.static "x-".data, Token.param "a".data [] false true]] ∧
    (¬ ∃ msg, tokenizePath "/x-:a?".data = Except.error msg) := by
  refine ⟨by rfl, ?_⟩
  rintro ⟨msg, hmsg⟩
  rw [show tokenizePath "/x-:a?".data =
      Except.ok [[Token.static "x-".data, Token.param "a".data [] false true]] from by rfl]
    at hmsg
  cases hmsg

theorem staticMatches_refl (sensitive : Bool) (v : Str) : staticMatches sensitive v v := by
  cases sensitive <;> simp [staticMatches]

theorem tokMatch_static_first (sem : CustomSem) (sensitive : Bool) (segLen : Nat) (v : Str) :
    tokMatches sem sensitive true segLen (.static v) ('/' :: v) [] :=
  ⟨rfl, v, rfl, staticMatches_refl sensitive v⟩

theorem tokMatch_static_rest (sem : CustomSem) (sensitive : Bool) (segLen : Nat) (v : Str) :
    tokMatches sem sensitive false segLen (.static v) v [] :=
  ⟨rfl, staticMatches_refl sensitive v⟩

theorem pieceMatches_base (sem : CustomSem) (g : Str) (hne : g ≠ []) (hns : '/' ∉ g) :
    pieceMatches sem [] g := by
  simp only [pieceMatches, if_pos]
  exact ⟨hne, hns⟩

theorem tokMatch_param_first (sem : CustomSem) (sensitive : Bool) (segLen : Nat) (n : Str)
    (g : Str) (hne : g ≠ []) (hns : '/' ∉ g) :
    tokMatches sem sensitive true segLen (.param n [] false false) ('/' :: g) [some g] := by
  simp only [tokMatches]
  refine Or.inr ⟨g, ?_, rfl, rfl⟩
  simp only [groupMatches, if_neg]
  exact pieceMatches_base sem g hne hns

theorem tokMatch_param_rest (sem : CustomSem) (sensitive : Bool) (segLen : Nat) (n : Str)
    (g : Str) (hne : g ≠ []) (hns : '/' ∉ g) :
    tokMatches sem sensitive false segLen (.param n [] false false) g [some g] := by
  simp only [tokMatches]
  refine Or.inr ⟨g, ?_, rfl, rfl⟩
  simp only [groupMatches, if_neg]
  exact pieceMatches_base sem g hne hns

/-- C3: `/users/new` out-ranks `/users/:id` (comparator negative means
sorted first), both regexps match `/users/new`, and first-match resolution
over the rank-ordered list selects the static pattern; likewise `/:a-:b`
out-ranks `/:a` and resolution of `/x-y` selects the sub-segmented
pattern. -/
theorem static_and_subsegment_selected :
    tokenizePath "/users/new".data =
      Except.ok [[Token.static "users".data], [Token.static "new".data]] ∧
    tokenizePath "/users/:id".data =
      Except.ok [[Token.static "users".data], [Token.param "id".data [] false false]] ∧
    comparePathParserScore
      (scoreOf {} [[Token.static "users".data], [Token.static "new".data]])
      (scoreOf {} [[Token.static "users".data], [Token.param "id".data [] false false]]) < 0 ∧
    reMatches semNone {} [[Token.static "users".data], [Token.param "id".data [] false false]]
      "/users/new".data [some "new".data] ∧
    resolvesTo semNone {}
      [[[Token.static "users".data], [Token.static "new".data]],
       [[Token.static "users".data], [Token.param "id".data [] false false]]]
      "/users/new".data
      [[Token.static "users".data], [Token.static "new".data]] ∧
    tokenizePath "/:a".data = Except.ok [[Token.param "a".data [] false false]] ∧
    tokenizePath "/:a-:b".data =
      Except.ok [[Token.param "a".data [] false false, Token.static "-".data,
        Token.param "b".data [] false false]] ∧
    comparePathParserScore
      (scoreOf {} [[Token.param "a".data [] false false, Token.static "-".data,
        Token.param "b".data [] false false]])
      (scoreOf {} [[Token.param "a".data [] false false]]) < 0 ∧
    reMatches semNone {} [[Token.param "a".data [] false false]]
      "/x-y".data [some "x-y".data] ∧
    resolvesTo semNone {}
      [[[Token.param "a".data [] false false, Token.static "-".data,
         Token.param "b".data [] false false]],
       [[Token.param "a".data [] false false]]]
      "/x-y".data
      [[Token.param "a".data [] false false, Token.static "-".data,
        Token.param "b".data [] false false]] := by
  have hsNew : scoreOf {} [[Token.static "users".data], [Token.static "new".data]] =
      [[80], [80]] := by
    norm_num [scoreOf, segmentScore, tokenScore, PathScore.Segment, PathScore.Static,
      PathScore.multiplier]
  have hwild : BASE_PARAM_PATTERN ≠ '.' :: '*' :: [] := by decide
  have hsId : scoreOf {} [[Token.static "users".data],
      [Token.param "id".data [] false false]] = [[80], [60]] := by
    norm_num [scoreOf, segmentScore, tokenScore, hwild, PathScore.Segment, PathScore.Static,
      PathScore.Dynamic, PathScore.multiplier]
  have hsA : scoreOf {} [[Token.param "a".data [] false false]] = [[60]] := by
    norm_num [scoreOf, segmentScore, tokenScore, hwild, PathScore.Segment, PathScore.Dynamic,
      PathScore.multiplier]
  have hsAB : scoreOf {} [[Token.param "a".data [] false false, Token.static "-".data,
      Token.param "b".data [] false false]] = [[60, 80, 60]] := by
    norm_num [scoreOf, segmentScore, tokenScore, hwild, PathScore.Segment, PathScore.Static,
      PathScore.Dynamic, PathScore.multiplier]
    intro h
    simp at h
  -- matches of the static pattern and of `/users/:id` against `/users/new`
  have mNew : segsMatch semNone false false
      [[Token.static "users".data], [Token.static "new".data]] "/users/new".data [] := by
    have t1 := toksMatch.cons (tokMatch_static_first semNone false 1 "users".data)
      (toksMatch.nil false)
    have t2 := toksMatch.cons (tokMatch_static_first semNone false 1 "new".data)
      (toksMatch.nil false)
    have hs := segsMatch.cons (show [Token.static "users".data] ≠ [] by simp) t1
      (segsMatch.cons (show [Token.static "new".data] ≠ [] by simp) t2
        ((segsMatch.nil : segsMatch semNone false false [] [] [])))
    simpa using hs
  have mId : segsMatch semNone false false
      [[Token.static "users".data], [Token.param "id".data [] false false]]
      "/users/new".data [some "new".data] := by
    have t1 := toksMatch.cons (tokMatch_static_first semNone false 1 "users".data)
      (toksMatch.nil false)
    have t2 := toksMatch.cons
      (tokMatch_param_first semNone false 1 "id".data "new".data (by decide) (by decide))
      (toksMatch.nil false)
    have hs := segsMatch.cons (show [Token.static "users".data] ≠ [] by simp) t1
      (segsMatch.cons (show [Token.param "id".data [] false false] ≠ [] by simp) t2
        ((segsMatch.nil : segsMatch semNone false false [] [] [])))
    simpa using hs
  -- matches of `/:a-:b` and `/:a` against `/x-y`
  have mAB : segsMatch semNone false false
      [[Token.param "a".data [] false false, Token.static "-".data,
        Token.param "b".data [] false false]] "/x-y".data [some "x".data, some "y".data] := by
    have t3 := toksMatch.cons
      (tokMatch_param_rest semNone false 3 "b".data "y".data (by decide) (by decide))
      (toksMatch.nil false)
    have t2 := toksMatch.cons (tokMatch_static_rest semNone false 3 "-".data) t3
    have t1 := toksMatch.cons
      (tokMatch_param_first semNone false 3 "a".data "x".data (by decide) (by decide)) t2
    have hs := segsMatch.cons
      (show [Token.param "a".data [] false false, Token.static "-".data,
        Token.param "b".data [] false false] ≠ [] by simp) t1
      ((segsMatch.nil : segsMatch semNone false false [] [] []))
    simpa using hs
  have mA : segsMatch semNone false false
      [[Token.param "a".data [] false false]] "/x-y".data [some "x-y".data] := by
    have t1 := toksMatch.cons
      (tokMatch_param_first semNone false 1 "a".data "x-y".data (by decide) (by decide))
      (toksMatch.nil false)
    have hs := segsMatch.cons (show [Token.param "a".data [] false false] ≠ [] by simp) t1
      ((segsMatch.nil : segsMatch semNone false false [] [] []))
    simpa using hs
  refine ⟨by rfl, by rfl, ?_, ⟨"/users/new".data, mId, Or.inl rfl⟩, ?_, by rfl, by rfl, ?_,
    ⟨"/x-y".data, mA, Or.inl rfl⟩, ?_⟩
  · rw [hsNew, hsId]
    norm_num [comparePathParserScore, firstNonzeroComp, compareScoreArray, firstNonzeroDiff]
  · exact ⟨[], _, rfl, ⟨[], "/users/new".data, mNew, Or.inl rfl⟩, by simp⟩
  · rw [hsAB, hsA]
    norm_num [comparePathParserScore, firstNonzeroComp, compareScoreArray, firstNonzeroDiff,
      PathScore.Static, PathScore.Segment, PathScore.multiplier]
  · exact ⟨[], _, rfl, ⟨[some "x".data, some "y".data], "/x-y".data, mAB, Or.inl rfl⟩, by simp⟩

theorem guardToPromiseFn_blocking (g : GuardReturn) (toLoc fromLoc : RouteLocation)
    (h : g ≠ .proceed) : ∃ e, guardToPromiseFn g toLoc fromLoc = .error e := by
  cases g with
  | proceed => exact absurd rfl h
  | abort => exact ⟨_, rfl⟩
  | redirect r => exact ⟨_, rfl⟩
  | exception m => exact ⟨_, rfl⟩

theorem runGuardQueue_cons_ok (rest : List (Except NavError Unit)) :
    runGuardQueue (Except.ok () :: rest) = runGuardQueue rest := rfl

theorem runGuardQueue_cons_error (e : NavError) (rest : List (Except NavError Unit)) :
    runGuardQueue (Except.error e :: rest) = Except.error e := rfl

theorem runGuardQueue_phase (phase : List GuardReturn) (toLoc fromLoc : RouteLocation) :
    runGuardQueue (phase.map (fun g => guardToPromiseFn g toLoc fromLoc)) =
      match phase.find? (fun g => !(g == GuardReturn.proceed)) with
      | none => .ok ()
      | some g => guardToPromiseFn g toLoc fromLoc := by
  induction phase with
  | nil => rfl
  | cons g rest ih =>
    by_cases h : g = GuardReturn.proceed
    · subst h
      rw [List.map_cons,
        show guardToPromiseFn GuardReturn.proceed toLoc fromLoc = Except.ok () from rfl,
        runGuardQueue_cons_ok, ih, List.find?_cons_of_neg _ (by simp)]
    · obtain ⟨e, he⟩ := guardToPromiseFn_blocking g toLoc fromLoc h
      have hbeq : (g == GuardReturn.proceed) = false := by
        simpa using h
      rw [List.map_cons, he, runGuardQueue_cons_error,
        List.find?_cons_of_pos _ (by simp [hbeq])]
      simp [he]

theorem navigate_foldl_error (phases : List (List GuardReturn))
    (pending toLoc fromLoc : RouteLocation) (e : NavError) :
    phases.foldl (navigateStep pending toLoc fromLoc) (.error e) = .error e := by
  induction phases with
  | nil => rfl
  | cons p rest ih => simpa [navigateStep] using ih

theorem navigate_run_eq (phases : List (List GuardReturn)) (toLoc fromLoc : RouteLocation) :
    phases.foldl (navigateStep toLoc toLoc fromLoc) (.ok ()) =
      match firstBlocking phases with
      | none => .ok ()
      | some g => guardToPromiseFn g toLoc fromLoc := by
  have hchk : checkCanceledNavigationAndReject toLoc toLoc fromLoc = .ok () := by
    simp [checkCanceledNavigationAndReject, checkCanceledNavigation]
  induction phases with
  | nil => rfl
  | cons phase rest ih =>
    cases hf : phase.find? (fun g => !(g == GuardReturn.proceed)) with
    | none =>
      have hstep : navigateStep toLoc toLoc fromLoc (.ok ()) phase = .ok () := by
        simp only [navigateStep, runGuardQueue_phase, hf, hchk]
        rfl
      have hfb : firstBlocking (phase :: rest) = firstBlocking rest := by
        simp [firstBlocking, List.find?_append, hf]
      rw [List.foldl_cons, hstep, ih, hfb]
    | some g =>
      have hg : g ≠ GuardReturn.proceed := by
        have := List.find?_some hf
        simpa using this
      obtain ⟨e, he⟩ := guardToPromiseFn_blocking g toLoc fromLoc hg
      have hstep : navigateStep toLoc toLoc fromLoc (.ok ()) phase = .error e := by
        simp only [navigateStep, runGuardQueue_phase, hf, he]
        rfl
      have hfb : firstBlocking (phase :: rest) = some g := by
        simp [firstBlocking, List.find?_append, hf]
      rw [List.foldl_cons, hstep, navigate_foldl_error]
      simp [hfb, he]

theorem navigate_abort (phases : List (List GuardReturn)) (toLoc fromLoc : RouteLocation)
    (h : firstBlocking phases = some .abort) :
    navigate phases toLoc toLoc fromLoc =
      .error (.failure { type := .aborted, fromLoc := fromLoc, toLoc := toLoc }) := by
  unfold navigate
  rw [navigate_run_eq, h]
  rfl

/-- C5: when the first non-advancing guard outcome of the pipeline is a
`false` return, the push resolves (does not reject) with the `Aborted`
failure, the committed route is untouched (no finalization), and the
after-guards are invoked once with exactly that failure. -/
theorem guard_false_aborts (cfg : RouterConfig) (fuel : Nat) (st : RouterState)
    (toRaw : RawLocation) (rf : Option (RouteLocation × Nat))
    (hre : handleRedirectRecord (cfg.resolveFn toRaw.loc) = none)
    (hdup : (!toRaw.force &&
      isSameRouteLocation cfg.sq st.currentRoute (cfg.resolveFn toRaw.loc)) = false)
    (hab : firstBlocking (cfg.guardsFor (cfg.resolveFn toRaw.loc) st.currentRoute) =
      some .abort) :
    pushWithRedirect cfg (fuel + 1) st toRaw rf =
      ({ st with
          pendingLocation := cfg.resolveFn toRaw.loc
          afterEachCalls := st.afterEachCalls ++
            [(cfg.resolveFn toRaw.loc, st.currentRoute,
              some { type := .aborted, fromLoc := st.currentRoute
                     toLoc := cfg.resolveFn toRaw.loc })] },
       .ok (some { type := .aborted, fromLoc := st.currentRoute
                   toLoc := cfg.resolveFn toRaw.loc })) := by
  have hnav := navigate_abort (cfg.guardsFor (cfg.resolveFn toRaw.loc) st.currentRoute)
    (cfg.resolveFn toRaw.loc) st.currentRoute hab
  simp [pushWithRedirect, hre, hdup, hnav, triggerAfterEach]

theorem guard_false_aborts_witness :
    pushWithRedirect
      { resolveFn := fun _ => locOf { id := 2 }
        guardsFor := fun _ _ => [[GuardReturn.proceed], [GuardReturn.abort]]
        sq := fun _ => "" } 8 initialState { loc := "/c" } none =
      ({ initialState with
          pendingLocation := locOf { id := 2 }
          afterEachCalls :=
            [(locOf { id := 2 }, startLocation,
              some { type := .aborted, fromLoc := startLocation
                     toLoc := locOf { id := 2 } })] },
       .ok (some { type := .aborted, fromLoc := startLocation
                   toLoc := locOf { id := 2 } })) := by
  have h := guard_false_aborts
    { resolveFn := fun _ => locOf { id := 2 }
      guardsFor := fun _ _ => [[GuardReturn.proceed], [GuardReturn.abort]]
      sq := fun _ => "" } 7 initialState { loc := "/c" } none
    (by rfl) (by rfl) (by rfl)
  exact h

/-- C6: an unforced push whose target is route-equal to the current location
short-circuits: the duplicated failure is the resolved value of the push
(not a rejection), the scroll step still runs, and the committed route is
untouched. -/
theorem duplicated_navigation_short_circuit (cfg : RouterConfig) (fuel : Nat)
    (st : RouterState) (toRaw : RawLocation) (rf : Option (RouteLocation × Nat))
    (hre : handleRedirectRecord (cfg.resolveFn toRaw.loc) = none)
    (hforce : toRaw.force = false)
    (hsame : isSameRouteLocation cfg.sq st.currentRoute (cfg.resolveFn toRaw.loc) = true) :
    pushWithRedirect cfg (fuel + 1) st toRaw rf =
      ({ st with
          pendingLocation := cfg.resolveFn toRaw.loc
          scrollCalls := st.scrollCalls ++ [(st.currentRoute, st.currentRoute)]
          afterEachCalls := st.afterEachCalls ++
            [(cfg.resolveFn toRaw.loc, st.currentRoute,
              some { type := .duplicated, fromLoc := st.currentRoute
                     toLoc := cfg.resolveFn toRaw.loc })] },
       .ok (some { type := .duplicated, fromLoc := st.currentRoute
                   toLoc := cfg.resolveFn toRaw.loc })) := by
  have hdup : (!toRaw.force &&
      isSameRouteLocation cfg.sq st.currentRoute (cfg.resolveFn toRaw.loc)) = true := by
    rw [hforce, hsame]
    rfl
  simp [pushWithRedirect, hre, hdup, triggerAfterEach]

theorem duplicated_navigation_short_circuit_witness :
    pushWithRedirect
      { resolveFn := fun _ => locOf { id := 2 }
        guardsFor := fun _ _ => [[GuardReturn.abort]]
        sq := fun _ => "" } 8
      { currentRoute := locOf { id := 2 }, pendingLocation := locOf { id := 2 } }
      { loc := "/c" } none =
      ({ currentRoute := locOf { id := 2 }
         pendingLocation := locOf { id := 2 }
         scrollCalls := [(locOf { id := 2 }, locOf { id := 2 })]
         afterEachCalls :=
           [(locOf { id := 2 }, locOf { id := 2 },
             some { type := .duplicated, fromLoc := locOf { id := 2 }
                    toLoc := locOf { id := 2 } })]
         errorCalls := [] },
       .ok (some { type := .duplicated, fromLoc := locOf { id := 2 }
                   toLoc := locOf { id := 2 } })) := by
  have h := duplicated_navigation_short_circuit
    { resolveFn := fun _ => locOf { id := 2 }
      guardsFor := fun _ _ => [[GuardReturn.abort]]
      sq := fun _ => "" } 7
    { currentRoute := locOf { id := 2 }, pendingLocation := locOf { id := 2 } }
    { loc := "/c" } none (by rfl) (by rfl) (by rfl)
  exact h

/-- C4 (counterexample): a record-declared redirect cycle `/a -> /b -> /a`
is chased without any counter: after 64 hops the navigation has still not
been aborted with an infinite-redirect error (the interpreter runs out of
fuel instead), no error was handed to the error handlers, and nothing was
committed — while the claim requires an `InfiniteRedirect` rejection after
30 redirects. -/
theorem record_redirect_chain_never_aborts :
    (pushWithRedirect recordRedirectLoopConfig 64 initialState { loc := "/a" } none).2 =
      .error .outOfFuel ∧
    (pushWithRedirect recordRedirectLoopConfig 64 initialState
      { loc := "/a" } none).1.currentRoute = startLocation ∧
    (pushWithRedirect recordRedirectLoopConfig 64 initialState
      { loc := "/a" } none).1.errorCalls = [] ∧
    (pushWithRedirect recordRedirectLoopConfig 64 initialState
      { loc := "/a" } none).1.afterEachCalls = [] ∧
    (pushWithRedirect recordRedirectLoopConfig 64 initialState
      { loc := "/a" } none).1.scrollCalls = [] :=
  ⟨rfl, rfl, rfl, rfl, rfl⟩

/-- C4 (amended): the 30-hop loop protection applies to navigation-guard
redirects in dev builds: a guard chain repeatedly redirecting to the same
resolved target rejects with the infinite-redirect error once the
per-chain counter exceeds 30, never committing and never running the after
guards; without the dev flag the same chain is chased unboundedly. -/
theorem guard_redirect_loop_infinite_redirect :
    (pushWithRedirect guardRedirectLoopConfig 40 initialState { loc := "/c" } none).2 =
      .error .infiniteRedirect ∧
    (pushWithRedirect guardRedirectLoopConfig 40 initialState
      { loc := "/c" } none).1.currentRoute = startLocation ∧
    (pushWithRedirect guardRedirectLoopConfig 40 initialState
      { loc := "/c" } none).1.afterEachCalls = [] ∧
    (pushWithRedirect guardRedirectLoopConfig 40 initialState
      { loc := "/c" } none).1.scrollCalls = [] ∧
    (pushWithRedirect { guardRedirectLoopConfig with dev := false } 64 initialState
      { loc := "/c" } none).2 = .error .outOfFuel :=
  ⟨rfl, rfl, rfl, rfl, rfl⟩

theorem stringifyTokens_param_eq (params : Params) (segLen : Nat) (n rx : Str)
    (rep opt : Bool) (rest : List Token) (path : Str) (avoid : Bool) :
    stringifyTokens params segLen (Token.param n rx rep opt :: rest) path avoid =
      (if isArrV ((getParam params n).getD (.str [])) ∧ ¬rep then
        .error (.nonRepeatableArray n)
      else if textOf ((getParam params n).getD (.str [])) = [] then
        if opt then
          if segLen < 2 then
            if endsWithSlash path then stringifyTokens params segLen rest path.dropLast avoid
            else stringifyTokens params segLen rest path true
          else stringifyTokens params segLen rest path avoid
        else .error (.missingParam n)
      else stringifyTokens params segLen rest
        (path ++ textOf ((getParam params n).getD (.str []))) avoid) := rfl

theorem no_arr_of_hyp (params : Params) (n : Str)
    (h : ∀ l, getParam params n ≠ some (ParamValue.arr l)) :
    isArrV ((getParam params n).getD (.str [])) = false := by
  cases hg : getParam params n with
  | none => rfl
  | some v =>
    cases v with
    | str s => rfl
    | arr l => exact absurd hg (h l)

theorem stringifyTokens_ok_or_missing (params : Params) (segLen : Nat) :
    ∀ (toks : List Token) (path : Str) (avoid : Bool),
      (∀ tok ∈ toks, ∀ n rx opt, tok = Token.param n rx false opt →
        ∀ l, getParam params n ≠ some (ParamValue.arr l)) →
      (∃ r, stringifyTokens params segLen toks path avoid = .ok r) ∨
      (∃ name, stringifyTokens params segLen toks path avoid =
        .error (.missingParam name)) := by
  intro toks
  induction toks with
  | nil => exact fun path avoid _ => Or.inl ⟨(path, avoid), rfl⟩
  | cons tok rest ih =>
    intro path avoid h
    have hrest : ∀ (path : Str) (avoid : Bool), _ := fun path avoid =>
      ih path avoid (fun t ht => h t (List.mem_cons_of_mem _ ht))
    cases tok with
    | static v => exact hrest (path ++ v) avoid
    | param n rx rep opt =>
      rw [stringifyTokens_param_eq]
      by_cases harr : isArrV ((getParam params n).getD (.str [])) ∧ ¬rep
      · exfalso
        have hrep : rep = false := by
          cases rep
          · rfl
          · exact absurd rfl harr.2
        subst hrep
        have := no_arr_of_hyp params n (h _ (List.mem_cons_self _ _) n rx opt rfl)
        rw [this] at harr
        exact Bool.false_ne_true harr.1
      · rw [if_neg harr]
        by_cases htext : textOf ((getParam params n).getD (.str [])) = []
        · rw [if_pos htext]
          by_cases hopt : opt
          · rw [if_pos hopt]
            by_cases hlen : segLen < 2
            · rw [if_pos hlen]
              by_cases hslash : endsWithSlash path
              · rw [if_pos hslash]
                exact hrest path.dropLast avoid
              · rw [if_neg hslash]
                exact hrest path true
            · rw [if_neg hlen]
              exact hrest path avoid
          · rw [if_neg hopt]
            exact Or.inr ⟨n, rfl⟩
        · rw [if_neg htext]
          exact hrest _ avoid

theorem stringifyTokens_absent_required_not_ok (params : Params) (segLen : Nat) :
    ∀ (toks : List Token) (path : Str) (avoid : Bool) (n rx : Str) (rep : Bool),
      Token.param n rx rep false ∈ toks → getParam params n = none →
      ∀ r, stringifyTokens params segLen toks path avoid ≠ .ok r := by
  intro toks
  induction toks with
  | nil => intro _ _ _ _ _ hmem; cases hmem
  | cons tok rest ih =>
    intro path avoid n rx rep hmem hnone r
    rcases List.mem_cons.mp hmem with heq | hmem'
    · subst heq
      rw [stringifyTokens_param_eq]
      have hv : (getParam params n).getD (ParamValue.str []) = .str [] := by
        rw [hnone]; rfl
      rw [hv]
      by_cases harr : isArrV (ParamValue.str []) ∧ ¬rep
      · rw [if_pos harr]; intro hc; cases hc
      · rw [if_neg harr, if_pos (by rfl), if_neg (by simp)]
        intro hc; cases hc
    · cases tok with
      | static v => exact ih (path ++ v) avoid n rx rep hmem' hnone r
      | param n2 rx2 rep2 opt2 =>
        rw [stringifyTokens_param_eq]
        by_cases harr : isArrV ((getParam params n2).getD (.str [])) ∧ ¬rep2
        · rw [if_pos harr]; intro hc; cases hc
        · rw [if_neg harr]
          by_cases htext : textOf ((getParam params n2).getD (.str [])) = []
          · rw [if_pos htext]
            by_cases hopt : opt2
            · rw [if_pos hopt]
              by_cases hlen : segLen < 2
              · rw [if_pos hlen]
                by_cases hslash : endsWithSlash path
                · rw [if_pos hslash]; exact ih path.dropLast avoid n rx rep hmem' hnone r
                · rw [if_neg hslash]; exact ih path true n rx rep hmem' hnone r
              · rw [if_neg hlen]; exact ih path avoid n rx rep hmem' hnone r
            · rw [if_neg hopt]; intro hc; cases hc
          · rw [if_neg htext]; exact ih _ avoid n rx rep hmem' hnone r

theorem stringifyTokens_ok_or_nonrep (params : Params) (segLen : Nat) :
    ∀ (toks : List Token) (path : Str) (avoid : Bool),
      (∀ tok ∈ toks, ∀ n rx rep, tok = Token.param n rx rep false →
        ∃ v, getParam params n = some v ∧ textOf v ≠ []) →
      (∃ r, stringifyTokens params segLen toks path avoid = .ok r) ∨
      (∃ name, stringifyTokens params segLen toks path avoid =
        .error (.nonRepeatableArray name)) := by
  intro toks
  induction toks with
  | nil => exact fun path avoid _ => Or.inl ⟨(path, avoid), rfl⟩
  | cons tok rest ih =>
    intro path avoid h
    have hrest : ∀ (path : Str) (avoid : Bool), _ := fun path avoid =>
      ih path avoid (fun t ht => h t (List.mem_cons_of_mem _ ht))
    cases tok with
    | static v => exact hrest (path ++ v) avoid
    | param n rx rep opt =>
      rw [stringifyTokens_param_eq]
      by_cases harr : isArrV ((getParam params n).getD (.str [])) ∧ ¬rep
      · rw [if_pos harr]
        exact Or.inr ⟨n, rfl⟩
      · rw [if_neg harr]
        by_cases htext : textOf ((getParam params n).getD (.str [])) = []
        · rw [if_pos htext]
          by_cases hopt : opt
          · rw [if_pos hopt]
            by_cases hlen : segLen < 2
            · rw [if_pos hlen]
              by_cases hslash : endsWithSlash path
              · rw [if_pos hslash]
                exact hrest path.dropLast avoid
              · rw [if_neg hslash]
                exact hrest path true
            · rw [if_neg hlen]
              exact hrest path avoid
          · rw [if_neg hopt]
            exfalso
            obtain ⟨v, hv, hvne⟩ := h _ (List.mem_cons_self _ _) n rx rep (by
              cases opt
              · rfl
              · exact absurd rfl hopt)
            rw [hv] at htext
            exact hvne htext
        · rw [if_neg htext]
          exact hrest _ avoid

theorem stringifyTokens_bad_array_not_ok (params : Params) (segLen : Nat) :
    ∀ (toks : List Token) (path : Str) (avoid : Bool) (n rx : Str) (opt : Bool)
      (l : List Str),
      Token.param n rx false opt ∈ toks → getParam params n = some (ParamValue.arr l) →
      ∀ r, stringifyTokens params segLen toks path avoid ≠ .ok r := by
  intro toks
  induction toks with
  | nil => intro _ _ _ _ _ _ hmem; cases hmem
  | cons tok rest ih =>
    intro path avoid n rx opt l hmem harrv r
    rcases List.mem_cons.mp hmem with heq | hmem'
    · subst heq
      rw [stringifyTokens_param_eq, harrv]
      rw [if_pos (by simp [isArrV])]
      intro hc; cases hc
    · cases tok with
      | static v => exact ih (path ++ v) avoid n rx opt l hmem' harrv r
      | param n2 rx2 rep2 opt2 =>
        rw [stringifyTokens_param_eq]
        by_cases harr : isArrV ((getParam params n2).getD (.str [])) ∧ ¬rep2
        · rw [if_pos harr]; intro hc; cases hc
        · rw [if_neg harr]
          by_cases htext : textOf ((getParam params n2).getD (.str [])) = []
          · rw [if_pos htext]
            by_cases hopt : opt2
            · rw [if_pos hopt]
              by_cases hlen : segLen < 2
              · rw [if_pos hlen]
                by_cases hslash : endsWithSlash path
                · rw [if_pos hslash]; exact ih path.dropLast avoid n rx opt l hmem' harrv r
                · rw [if_neg hslash]; exact ih path true n rx opt l hmem' harrv r
              · rw [if_neg hlen]; exact ih path avoid n rx opt l hmem' harrv r
            · rw [if_neg hopt]; intro hc; cases hc
          · rw [if_neg htext]; exact ih _ avoid n rx opt l hmem' harrv r

theorem stringifySegs_ok_or_missing (params : Params) :
    ∀ (segments : List (List Token)) (path : Str) (avoid : Bool),
      NoBadArray params segments →
      (∃ r, stringifySegs params segments path avoid = .ok r) ∨
      (∃ name, stringifySegs params segments path avoid =
        .error (.missingParam name)) := by
  intro segments
  induction segments with
  | nil => exact fun path avoid _ => Or.inl ⟨path, rfl⟩
  | cons seg rest ih =>
    intro path avoid h
    have hseg := stringifyTokens_ok_or_missing params seg.length seg
      (if !avoid || !endsWithSlash path then path ++ ['/'] else path) false
      (fun t ht => h seg (List.mem_cons_self _ _) t ht)
    rcases hseg with ⟨r, hr⟩ | ⟨name, hname⟩
    · have hrest := ih r.1 r.2 (fun s hs => h s (List.mem_cons_of_mem _ hs))
      rcases hrest with ⟨r2, hr2⟩ | ⟨name, hname⟩
      · refine Or.inl ⟨r2, ?_⟩
        simp only [stringifySegs]
        rw [hr]
        exact hr2
      · refine Or.inr ⟨name, ?_⟩
        simp only [stringifySegs]
        rw [hr]
        exact hname
    · refine Or.inr ⟨name, ?_⟩
      simp only [stringifySegs]
      rw [hname]
      rfl

theorem stringifySegs_absent_required_not_ok (params : Params) :
    ∀ (segments : List (List Token)) (path : Str) (avoid : Bool),
      HasAbsentRequired params segments →
      ∀ r, stringifySegs params segments path avoid ≠ .ok r := by
  intro segments
  induction segments with
  | nil => intro _ _ habs; rcases habs with ⟨_, hmem, _⟩; cases hmem
  | cons seg rest ih =>
    intro path avoid habs r
    obtain ⟨s, hs, n, rx, rep, hmem, hnone⟩ := habs
    rcases List.mem_cons.mp hs with heq | hs'
    · subst heq
      cases hk : stringifyTokens params s.length s
          (if !avoid || !endsWithSlash path then path ++ ['/'] else path) false with
      | ok r2 =>
        exact absurd hk
          (stringifyTokens_absent_required_not_ok params s.length s _ false n rx rep
            hmem hnone r2)
      | error e =>
        simp only [stringifySegs]
        rw [hk]
        intro hc
        cases hc
    · cases hk : stringifyTokens params seg.length seg
          (if !avoid || !endsWithSlash path then path ++ ['/'] else path) false with
      | ok r2 =>
        have := ih r2.1 r2.2 ⟨s, hs', n, rx, rep, hmem, hnone⟩ r
        simp only [stringifySegs]
        rw [hk]
        exact this
      | error e =>
        simp only [stringifySegs]
        rw [hk]
        intro hc
        cases hc

theorem stringifySegs_ok_or_nonrep (params : Params) :
    ∀ (segments : List (List Token)) (path : Str) (avoid : Bool),
      RequiredPresent params segments →
      (∃ r, stringifySegs params segments path avoid = .ok r) ∨
      (∃ name, stringifySegs params segments path avoid =
        .error (.nonRepeatableArray name)) := by
  intro segments
  induction segments with
  | nil => exact fun path avoid _ => Or.inl ⟨path, rfl⟩
  | cons seg rest ih =>
    intro path avoid h
    have hseg := stringifyTokens_ok_or_nonrep params seg.length seg
      (if !avoid || !endsWithSlash path then path ++ ['/'] else path) false
      (fun t ht n rx rep heq => h seg (List.mem_cons_self _ _) n rx rep (heq ▸ ht))
    rcases hseg with ⟨r, hr⟩ | ⟨name, hname⟩
    · have hrest := ih r.1 r.2 (fun s hs => h s (List.mem_cons_of_mem _ hs))
      rcases hrest with ⟨r2, hr2⟩ | ⟨name, hname⟩
      · refine Or.inl ⟨r2, ?_⟩
        simp only [stringifySegs]
        rw [hr]
        exact hr2
      · refine Or.inr ⟨name, ?_⟩
        simp only [stringifySegs]
        rw [hr]
        exact hname
    · refine Or.inr ⟨name, ?_⟩
      simp only [stringifySegs]
      rw [hname]
      rfl

theorem stringifySegs_bad_array_not_ok (params : Params) :
    ∀ (segments : List (List Token)) (path : Str) (avoid : Bool),
      HasNonRepeatableArray params segments →
      ∀ r, stringifySegs params segments path avoid ≠ .ok r := by
  intro segments
  induction segments with
  | nil => intro _ _ habs; rcases habs with ⟨_, hmem, _⟩; cases hmem
  | cons seg rest ih =>
    intro path avoid habs r
    obtain ⟨s, hs, n, rx, opt, l, hmem, harrv⟩ := habs
    rcases List.mem_cons.mp hs with heq | hs'
    · subst heq
      cases hk : stringifyTokens params s.length s
          (if !avoid || !endsWithSlash path then path ++ ['/'] else path) false with
      | ok r2 =>
        exact absurd hk
          (stringifyTokens_bad_array_not_ok params s.length s _ false n rx opt l
            hmem harrv r2)
      | error e =>
        simp only [stringifySegs]
        rw [hk]
        intro hc
        cases hc
    · cases hk : stringifyTokens params seg.length seg
          (if !avoid || !endsWithSlash path then path ++ ['/'] else path) false with
      | ok r2 =>
        have := ih r2.1 r2.2 ⟨s, hs', n, rx, opt, l, hmem, harrv⟩ r
        simp only [stringifySegs]
        rw [hk]
        exact this
      | error e =>
        simp only [stringifySegs]
        rw [hk]
        intro hc
        cases hc

/-- C8: `stringify` fails with the missing-parameter error when a required
parameter is absent from the input (and the input supplies arrays only to
repeatable parameters), and with the non-repeatable-array error when an
array value is supplied for a non-repeatable parameter (and every required
parameter is otherwise supplied a nonempty value). -/
theorem stringify_failure_modes :
    (∀ (segments : List (List Token)) (params : Params),
      NoBadArray params segments → HasAbsentRequired params segments →
      ∃ name, stringify segments params = .error (.missingParam name)) ∧
    (∀ (segments : List (List Token)) (params : Params),
      RequiredPresent params segments → HasNonRepeatableArray params segments →
      ∃ name, stringify segments params = .error (.nonRepeatableArray name)) := by
  constructor
  · intro segments params hnoarr habs
    rcases stringifySegs_ok_or_missing params segments [] false hnoarr with ⟨r, hr⟩ | ⟨name, hname⟩
    · exact absurd hr (stringifySegs_absent_required_not_ok params segments [] false habs r)
    · refine ⟨name, ?_⟩
      simp only [stringify]
      rw [hname]
      rfl
  · intro segments params hreq harr
    rcases stringifySegs_ok_or_nonrep params segments [] false hreq with ⟨r, hr⟩ | ⟨name, hname⟩
    · exact absurd hr (stringifySegs_bad_array_not_ok params segments [] false harr r)
    · refine ⟨name, ?_⟩
      simp only [stringify]
      rw [hname]
      rfl

theorem stringify_failure_modes_witness :
    (∃ name, stringify [[Token.static "users".data], [Token.param "id".data [] false false]]
      [] = .error (.missingParam name)) ∧
    (∃ name, stringify [[Token.param "x".data [] false false]]
      [("x".data, ParamValue.arr ["a".data, "b".data])] =
      .error (.nonRepeatableArray name)) := by
  constructor
  · refine stringify_failure_modes.1 _ _ ?_ ?_
    · intro seg hseg tok htok n rx opt heq l
      simp [getParam]
    · exact ⟨[Token.param "id".data [] false false], by simp, "id".data, [], false,
        by simp, rfl⟩
  · refine stringify_failure_modes.2 _ _ ?_ ?_
    · intro seg hseg n rx rep hmem
      simp at hseg
      subst hseg
      simp at hmem
      obtain ⟨rfl, rfl, rfl⟩ := hmem.1
      exact ⟨ParamValue.arr ["a".data, "b".data], by simp [getParam], by simp [textOf, joinSlash, List.intercalate]⟩
    · exact ⟨[Token.param "x".data [] false false], by simp, "x".data, [], false,
        ["a".data, "b".data], by simp, by simp [getParam]⟩

theorem splitSlash_ne_nil (s : Str) : splitSlash s ≠ [] := by
  cases s with
  | nil => simp [splitSlash]
  | cons c rest =>
    simp only [splitSlash]
    by_cases h : c = '/'
    · simp [h]
    · rw [if_neg h]
      cases hr : splitSlash rest with
      | nil => simp
      | cons a t => simp

theorem joinSlash_cons (h : Str) (t : List Str) (hne : t ≠ []) :
    joinSlash (h :: t) = h ++ '/' :: joinSlash t := by
  cases t with
  | nil => exact absurd rfl hne
  | cons a t2 => rfl

theorem joinSlash_splitSlash (s : Str) : joinSlash (splitSlash s) = s := by
  induction s with
  | nil => rfl
  | cons c rest ih =>
    simp only [splitSlash]
    by_cases h : c = '/'
    · subst h
      rw [if_pos rfl, joinSlash_cons [] (splitSlash rest) (splitSlash_ne_nil rest)]
      simp [ih]
    · rw [if_neg h]
      cases hr : splitSlash rest with
      | nil => exact absurd hr (splitSlash_ne_nil rest)
      | cons a t =>
        rw [hr] at ih
        cases t with
        | nil =>
          simp only [joinSlash] at ih ⊢
          simp [ih]
        | cons b t2 =>
          rw [joinSlash_cons (c :: a) (b :: t2) (by simp)]
          rw [joinSlash_cons a (b :: t2) (by simp)] at ih
          simp [← ih]

theorem BindOK_cons (x : Str × ParamValue) (params : Params) :
    ∀ (keys : List PathParserParamKey) (caps : Caps),
      (∀ k ∈ keys, x.1 ≠ k.name) → BindOK params keys caps →
      BindOK (x :: params) keys caps := by
  intro keys
  induction keys with
  | nil => intro caps _ h; cases caps with
    | nil => trivial
    | cons c cs => exact h.elim
  | cons k ks ih =>
    intro caps hx h
    cases caps with
    | nil => exact h.elim
    | cons c cs =>
      obtain ⟨hget, hrest⟩ := h
      refine ⟨?_, ih cs (fun k2 hk2 => hx k2 (List.mem_cons_of_mem _ hk2)) hrest⟩
      simp only [getParam]
      rw [if_neg (hx k (List.mem_cons_self _ _)), hget]

theorem BindOK_zipParams :
    ∀ (keys : List PathParserParamKey) (caps : Caps),
      keys.length = caps.length →
      (keys.map PathParserParamKey.name).Nodup →
      BindOK (zipParams keys caps) keys caps := by
  intro keys
  induction keys with
  | nil => intro caps hlen _; cases caps with
    | nil => trivial
    | cons c cs => simp at hlen
  | cons k ks ih =>
    intro caps hlen hnodup
    cases caps with
    | nil => simp at hlen
    | cons c cs =>
      simp only [List.map_cons, List.nodup_cons] at hnodup
      refine ⟨?_, ?_⟩
      · simp [zipParams, getParam]
      · have htail := ih cs (by simpa using hlen) hnodup.2
        exact BindOK_cons (k.name, paramValueOf k c) _ ks cs
          (fun k2 hk2 => by
            intro hc
            have hkk : k.name = k2.name := hc
            refine hnodup.1 ?_
            rw [hkk]
            exact List.mem_map_of_mem PathParserParamKey.name hk2)
          htail

theorem parseCapsAux_eq_zip :
    ∀ (keys : List PathParserParamKey) (caps : Caps) (ps : Params),
      keys.length = caps.length →
      (keys.map PathParserParamKey.name).Nodup →
      (∀ k ∈ keys, ∀ q ∈ ps, q.1 ≠ k.name) →
      parseCapsAux keys caps ps = ps ++ zipParams keys caps := by
  intro keys
  induction keys with
  | nil => intro caps ps _ _ _; cases caps <;> simp [parseCapsAux, zipParams]
  | cons k ks ih =>
    intro caps ps hlen hnodup hfresh
    cases caps with
    | nil => simp at hlen
    | cons c cs =>
      simp only [List.map_cons, List.nodup_cons] at hnodup
      have hset : setParam ps k.name (paramValueOf k c) = ps ++ [(k.name, paramValueOf k c)] := by
        have hfind : ps.find? (fun kv => kv.1 = k.name) = none := by
          rw [List.find?_eq_none]
          intro q hq
          simpa using hfresh k (List.mem_cons_self _ _) q hq
        simp [setParam, hfind]
      simp only [parseCapsAux, hset]
      rw [ih cs (ps ++ [(k.name, paramValueOf k c)]) (by simpa using hlen) hnodup.2 ?_]
      · simp [zipParams]
      · intro k2 hk2 q hq
        rcases List.mem_append.mp hq with hq | hq
        · exact hfresh k2 (List.mem_cons_of_mem _ hk2) q hq
        · simp at hq
          subst hq
          intro hc
          have hkk : k.name = k2.name := hc
          refine hnodup.1 ?_
          rw [hkk]
          exact List.mem_map_of_mem PathParserParamKey.name hk2

theorem parseCaps_bind (keys : List PathParserParamKey) (caps : Caps)
    (hlen : keys.length = caps.length)
    (hnodup : (keys.map PathParserParamKey.name).Nodup) :
    BindOK (parseCaps keys caps) keys caps := by
  have := parseCapsAux_eq_zip keys caps [] hlen hnodup (by simp)
  rw [parseCaps, this]
  simpa using BindOK_zipParams keys caps hlen hnodup

theorem BindOK_append (params : Params) :
    ∀ (ks1 : List PathParserParamKey) (cs1 : Caps) (ks2 : List PathParserParamKey)
      (cs2 : Caps), ks1.length = cs1.length →
      BindOK params (ks1 ++ ks2) (cs1 ++ cs2) →
      BindOK params ks1 cs1 ∧ BindOK params ks2 cs2 := by
  intro ks1
  induction ks1 with
  | nil =>
    intro cs1 ks2 cs2 hlen h
    cases cs1 with
    | nil => exact ⟨trivial, by simpa using h⟩
    | cons c cs => simp at hlen
  | cons k ks ih =>
    intro cs1 ks2 cs2 hlen h
    cases cs1 with
    | nil => simp at hlen
    | cons c cs =>
      obtain ⟨hget, hrest⟩ := h
      obtain ⟨h1, h2⟩ := ih cs ks2 cs2 (by simpa using hlen) hrest
      exact ⟨⟨hget, h1⟩, h2⟩

theorem keysOfTokens_cons (t : Token) (rest : List Token) :
    keysOfTokens (t :: rest) = keyOfToken t ++ keysOfTokens rest := by
  simp [keysOfTokens]

theorem keysOf_cons (seg : List Token) (rest : List (List Token)) :
    keysOf (seg :: rest) = keysOfTokens seg ++ keysOf rest := by
  simp [keysOf, keysOfTokens]

theorem tokMatches_caps_length (sem : CustomSem) (sens first : Bool) (segLen : Nat)
    (tok : Token) (c : Str) (cs : Caps) (h : tokMatches sem sens first segLen tok c cs) :
    cs.length = (keyOfToken tok).length := by
  cases tok with
  | static v => rw [h.1]; rfl
  | param n rx rep opt =>
    simp only [tokMatches] at h
    split at h
    · split at h
      · rcases h with ⟨_, hc⟩ | ⟨g, _, _, hc⟩ <;> simp [hc, keyOfToken]
      · rcases h with ⟨_, _, hc⟩ | ⟨g, _, _, hc⟩ <;> simp [hc, keyOfToken]
    · rcases h with ⟨_, _, hc⟩ | ⟨g, _, _, hc⟩ <;> simp [hc, keyOfToken]

theorem toksMatch_caps_length (sem : CustomSem) (sens : Bool) (segLen : Nat) :
    ∀ {first : Bool} {toks : List Token} {c : Str} {cs : Caps},
      toksMatch sem sens segLen first toks c cs →
      cs.length = (keysOfTokens toks).length := by
  intro first toks c cs h
  induction h with
  | nil => rfl
  | cons tokM trest ih =>
    rw [keysOfTokens_cons]
    simp [List.length_append, tokMatches_caps_length _ _ _ _ _ _ _ tokM, ih]

theorem segsMatch_caps_length (sem : CustomSem) (sens strict : Bool) :
    ∀ {segs : List (List Token)} {core : Str} {caps : Caps},
      segsMatch sem sens strict segs core caps →
      caps.length = (keysOf segs).length := by
  intro segs core caps h
  induction h with
  | nil => rfl
  | consEmpty hrest ih => simpa [keysOf_cons, keysOfTokens] using ih
  | cons hne toks hrest ih =>
    rw [keysOf_cons]
    simp [List.length_append, toksMatch_caps_length _ _ _ toks, ih]

theorem endsWithSlash_concat (p : Str) : endsWithSlash (p ++ ['/']) = true := by
  simp [endsWithSlash]

theorem paramValueOf_none (key : PathParserParamKey) :
    paramValueOf key none = .str [] := rfl

theorem textOf_paramValueOf_some (key : PathParserParamKey) (g : Str) (hg : g ≠ []) :
    textOf (paramValueOf key (some g)) = g := by
  by_cases hrep : key.repeatable
  · simp only [paramValueOf, Option.getD_some]
    rw [if_pos ⟨hg, hrep⟩]
    simp [textOf, joinSlash_splitSlash]
  · simp only [paramValueOf, Option.getD_some]
    rw [if_neg (by
      intro hc
      exact hrep hc.2)]
    rfl

theorem isArrV_paramValueOf_nonrep (key : PathParserParamKey) (cap : Option Str)
    (hrep : key.repeatable = false) : isArrV (paramValueOf key cap) = false := by
  simp only [paramValueOf]
  split
  · rename_i hcond
    rw [hrep] at hcond
    exact absurd hcond.2 Bool.false_ne_true
  · rfl

theorem stringifyTokens_toksMatch_rest (params : Params) (sem : CustomSem) (segLen : Nat) :
    ∀ (toks : List Token) (c : Str) (cs : Caps),
      toksMatch sem true segLen false toks c cs →
      (toks = [] ∨ 2 ≤ segLen) →
      BindOK params (keysOfTokens toks) cs →
      (∀ g : Str, some g ∈ cs → g ≠ []) →
      ∀ (path : Str) (avoid : Bool),
        stringifyTokens params segLen toks path avoid = .ok (path ++ c, avoid) := by
  intro toks
  induction toks with
  | nil =>
    intro c cs h _ _ _ path avoid
    cases h
    simp [stringifyTokens]
  | cons tok rest ih =>
    intro c cs h h2 hbind hcaps path avoid
    have hsl : 2 ≤ segLen := by
      rcases h2 with h2 | h2
      · cases h2
      · exact h2
    cases h with
    | cons tokM trest =>
      rename_i c1 s cs1 caps1
      cases tok with
      | static v =>
        have hcs1 : cs1 = [] := tokM.1
        subst hcs1
        have hcv : c1 = v := tokM.2
        have hbind' : BindOK params (keysOfTokens rest) caps1 := by
          rw [keysOfTokens_cons] at hbind
          simpa [keyOfToken] using hbind
        have hrec := ih s caps1 trest (Or.inr hsl) hbind'
          (fun g hg => hcaps g (by simp [hg])) (path ++ v) avoid
        simp only [stringifyTokens, hrec, hcv]
        rw [List.append_assoc]
      | param n rx rep opt =>
        have tokM' : (opt = true ∧ c1 = [] ∧ cs1 = [none]) ∨
            ∃ g, groupMatches sem rx rep g ∧ c1 = g ∧ cs1 = [some g] := tokM
        have hkey : keysOfTokens (Token.param n rx rep opt :: rest) =
            ⟨n, rep, opt⟩ :: keysOfTokens rest := by
          rw [keysOfTokens_cons]; rfl
        rcases tokM' with ⟨hopt, hc1, hcs1⟩ | ⟨g, hg, hc1, hcs1⟩
        · subst hc1; subst hcs1
          obtain ⟨hget, hbind'⟩ : getParam params n =
              some (paramValueOf ⟨n, rep, opt⟩ none) ∧
              BindOK params (keysOfTokens rest) caps1 := by
            rw [hkey] at hbind
            exact hbind
          rw [paramValueOf_none] at hget
          have := ih s caps1 trest (Or.inr hsl) hbind'
            (fun g hg => hcaps g (by simp [hg])) path avoid
          rw [stringifyTokens_param_eq, hget]
          simp only [Option.getD_some]
          rw [if_neg (by
            intro hc
            exact Bool.false_ne_true hc.1),
            if_pos (show textOf (ParamValue.str []) = [] from rfl), if_pos hopt,
            if_neg (by omega), this]
          simp
        · subst hc1; subst hcs1
          have hgne : c1 ≠ [] := hcaps c1 (by simp)
          obtain ⟨hget, hbind'⟩ : getParam params n =
              some (paramValueOf ⟨n, rep, opt⟩ (some c1)) ∧
              BindOK params (keysOfTokens rest) caps1 := by
            rw [hkey] at hbind
            exact hbind
          have htext : textOf (paramValueOf ⟨n, rep, opt⟩ (some c1)) = c1 :=
            textOf_paramValueOf_some _ c1 hgne
          have hrec := ih s caps1 trest (Or.inr hsl) hbind'
            (fun g2 hg2 => hcaps g2 (by simp [hg2])) (path ++ c1) avoid
          rw [stringifyTokens_param_eq, hget]
          simp only [Option.getD_some]
          by_cases hrep : rep
          · rw [if_neg (by
              intro hcond
              exact hcond.2 hrep), htext, if_neg hgne, hrec, List.append_assoc]
          · have hrepf : rep = false := by
              cases rep
              · rfl
              · exact absurd rfl hrep
            rw [if_neg (by
              intro hcond
              rw [isArrV_paramValueOf_nonrep ⟨n, rep, opt⟩ (some c1) hrepf] at hcond
              exact Bool.false_ne_true hcond.1), htext, if_neg hgne, hrec,
              List.append_assoc]

theorem stringifyTokens_toksMatch_first (params : Params) (sem : CustomSem) :
    ∀ (toks : List Token) (c : Str) (cs : Caps),
      toksMatch sem true toks.length true toks c cs →
      toks ≠ [] →
      BindOK params (keysOfTokens toks) cs →
      (∀ cap ∈ cs, ∃ g : Str, cap = some g ∧ g ≠ []) →
      ∀ path : Str,
        stringifyTokens params toks.length toks (path ++ ['/']) false =
          .ok (path ++ c, false) := by
  intro toks c cs h hne hbind hcapsall path
  cases h with
  | nil => exact absurd rfl hne
  | cons tokM trest =>
    rename_i tok rest c1 s cs1 caps1
    have hrestlen : rest = [] ∨ 2 ≤ (tok :: rest).length := by
      cases rest with
      | nil => exact Or.inl rfl
      | cons a t => right; simp
    have hcaps1 : ∀ g : Str, some g ∈ caps1 → g ≠ [] := by
      intro g hg
      obtain ⟨g2, hg2, hg2ne⟩ := hcapsall (some g) (by simp [hg])
      cases hg2
      exact hg2ne
    cases tok with
    | static v =>
      have hcs1 : cs1 = [] := tokM.1
      subst hcs1
      obtain ⟨s', hc1, hs'⟩ := tokM.2
      have hsv : s' = v := hs'
      rw [hsv] at hc1
      subst hc1
      have hbind' : BindOK params (keysOfTokens rest) caps1 := by
        rw [keysOfTokens_cons] at hbind
        simpa [keyOfToken] using hbind
      have hrec := stringifyTokens_toksMatch_rest params sem (Token.static v :: rest).length
        rest s caps1 trest hrestlen hbind' hcaps1 (path ++ ['/'] ++ v) false
      simp only [stringifyTokens]
      rw [hrec]
      simp
    | param n rx rep opt =>
      have hkey : keysOfTokens (Token.param n rx rep opt :: rest) =
          ⟨n, rep, opt⟩ :: keysOfTokens rest := by
        rw [keysOfTokens_cons]; rfl
      have tokM' : ∃ g, groupMatches sem rx rep g ∧ c1 = '/' :: g ∧ cs1 = [some g] := by
        have tokM2 : (if opt ∧ (Token.param n rx rep opt :: rest).length < 2 then
            (c1 = [] ∧ cs1 = [none]) ∨
              ∃ g, groupMatches sem rx rep g ∧ c1 = '/' :: g ∧ cs1 = [some g]
          else
            (opt ∧ c1 = ['/'] ∧ cs1 = [none]) ∨
              ∃ g, groupMatches sem rx rep g ∧ c1 = '/' :: g ∧ cs1 = [some g]) := tokM
        split at tokM2
        · rcases tokM2 with ⟨_, hcs1⟩ | hres
          · exfalso
            obtain ⟨g2, hg2, _⟩ := hcapsall none (by simp [hcs1])
            cases hg2
          · exact hres
        · rcases tokM2 with ⟨_, _, hcs1⟩ | hres
          · exfalso
            obtain ⟨g2, hg2, _⟩ := hcapsall none (by simp [hcs1])
            cases hg2
          · exact hres
      obtain ⟨g, hg, hc1, hcs1⟩ := tokM'
      subst hc1; subst hcs1
      have hgne : g ≠ [] := by
        obtain ⟨g2, hg2, hg2ne⟩ := hcapsall (some g) (by simp)
        cases hg2
        exact hg2ne
      obtain ⟨hget, hbind'⟩ : getParam params n =
          some (paramValueOf ⟨n, rep, opt⟩ (some g)) ∧
          BindOK params (keysOfTokens rest) caps1 := by
        rw [hkey] at hbind
        exact hbind
      have htext : textOf (paramValueOf ⟨n, rep, opt⟩ (some g)) = g :=
        textOf_paramValueOf_some _ g hgne
      have hrec := stringifyTokens_toksMatch_rest params sem
        (Token.param n rx rep opt :: rest).length rest s caps1 trest hrestlen hbind'
        hcaps1 (path ++ ['/'] ++ g) false
      rw [stringifyTokens_param_eq, hget]
      simp only [Option.getD_some]
      by_cases hrep : rep
      · rw [if_neg (by
          intro hcond
          exact hcond.2 hrep), htext, if_neg hgne, hrec]
        simp
      · have hrepf : rep = false := by
          cases rep
          · rfl
          · exact absurd rfl hrep
        rw [if_neg (by
          intro hcond
          rw [isArrV_paramValueOf_nonrep ⟨n, rep, opt⟩ (some g) hrepf] at hcond
          exact Bool.false_ne_true hcond.1), htext, if_neg hgne, hrec]
        simp

theorem stringifySegs_of_segsMatch (params : Params) (sem : CustomSem) (strict : Bool) :
    ∀ (segs : List (List Token)) (core : Str) (caps : Caps),
      segsMatch sem true strict segs core caps →
      (∀ seg ∈ segs, seg ≠ []) →
      BindOK params (keysOf segs) caps →
      (∀ cap ∈ caps, ∃ g : Str, cap = some g ∧ g ≠ []) →
      ∀ path : Str,
        stringifySegs params segs path false = .ok (path ++ core) := by
  intro segs
  induction segs with
  | nil =>
    intro core caps h _ _ _ path
    cases h
    simp [stringifySegs]
  | cons seg rest ih =>
    intro core caps h hsegs hbind hcapsall path
    cases h with
    | consEmpty hrest' => exact absurd rfl (hsegs [] (List.mem_cons_self _ _))
    | cons hne2 toksM hrest' =>
      rename_i c s cs1 caps1
      have hlen : (keysOfTokens seg).length = cs1.length :=
        (toksMatch_caps_length sem true seg.length toksM).symm
      obtain ⟨hb1, hb2⟩ := BindOK_append params (keysOfTokens seg) cs1 (keysOf rest) caps1
        hlen (by rw [keysOf_cons] at hbind; exact hbind)
      have h1 := stringifyTokens_toksMatch_first params sem seg c cs1 toksM
        (hsegs seg (List.mem_cons_self _ _)) hb1
        (fun cap hc => hcapsall cap (by simp [hc])) path
      have h2 := ih s caps1 hrest'
        (fun sg hsg => hsegs sg (List.mem_cons_of_mem _ hsg)) hb2
        (fun cap hc => hcapsall cap (by simp [hc])) (path ++ c)
      have heq : stringifySegs params (seg :: rest) path false =
          (stringifyTokens params seg.length seg (path ++ ['/']) false).bind
            (fun r => stringifySegs params rest r.1 r.2) := rfl
      rw [heq, h1]
      have hbindok : (Except.ok (ε := StringifyError) ((path ++ c, false) : Str × Bool)).bind
          (fun r => stringifySegs params rest r.1 r.2) =
          stringifySegs params rest (path ++ c) false := rfl
      rw [hbindok, h2, List.append_assoc]

theorem toksMatch_first_starts_slash (sem : CustomSem) (segLen : Nat) :
    ∀ {toks : List Token} {c : Str} {cs : Caps},
      toksMatch sem true segLen true toks c cs →
      toks ≠ [] →
      (∀ cap ∈ cs, ∃ g : Str, cap = some g ∧ g ≠ []) →
      ∃ t, c = '/' :: t := by
  intro toks c cs h hne hcapsall
  cases h with
  | nil => exact absurd rfl hne
  | cons tokM trest =>
    rename_i tok rest c1 s cs1 caps1
    cases tok with
    | static v =>
      obtain ⟨s', hc1, _⟩ := tokM.2
      exact ⟨s' ++ s, by rw [hc1]; rfl⟩
    | param n rx rep opt =>
      have tokM2 : (if opt ∧ segLen < 2 then
          (c1 = [] ∧ cs1 = [none]) ∨
            ∃ g, groupMatches sem rx rep g ∧ c1 = '/' :: g ∧ cs1 = [some g]
        else
          (opt ∧ c1 = ['/'] ∧ cs1 = [none]) ∨
            ∃ g, groupMatches sem rx rep g ∧ c1 = '/' :: g ∧ cs1 = [some g]) := tokM
      have hres : ∃ g, groupMatches sem rx rep g ∧ c1 = '/' :: g ∧ cs1 = [some g] := by
        split at tokM2
        · rcases tokM2 with ⟨_, hcs1⟩ | hres
          · exfalso
            obtain ⟨g2, hg2, _⟩ := hcapsall none (by simp [hcs1])
            cases hg2
          · exact hres
        · rcases tokM2 with ⟨_, _, hcs1⟩ | hres
          · exfalso
            obtain ⟨g2, hg2, _⟩ := hcapsall none (by simp [hcs1])
            cases hg2
          · exact hres
      obtain ⟨g, _, hc1, _⟩ := hres
      exact ⟨g ++ s, by rw [hc1]; rfl⟩

/-- C1 (amended): for a pattern compiled case-sensitively from nonempty
segments with distinct parameter names, and a path the pattern matches with
every capture present and nonempty (no optional parameter omitted),
`stringify` applied to the params that `parse` builds from the captures
succeeds and returns the matched path up to an optional trailing slash: the
claimed `stringify(parse(p)) = p` holds for the slash-free form, while a
matched `p` carrying the trailing slash the non-strict regexp also accepts
is returned without it, refuting exactness. -/
theorem stringify_parse_roundtrip (sem : CustomSem) (strict : Bool)
    (segments : List (List Token)) (p : Str) (caps : Caps)
    (hm : reMatches sem { sensitive := true, strict := strict } segments p caps)
    (hne : segments ≠ [])
    (hsegs : ∀ seg ∈ segments, seg ≠ [])
    (hnodup : ((keysOf segments).map PathParserParamKey.name).Nodup)
    (hcaps : ∀ cap ∈ caps, ∃ g : Str, cap = some g ∧ g ≠ []) :
    ∃ canonical,
      stringify segments (parseCaps (keysOf segments) caps) = .ok canonical ∧
      (p = canonical ∨ p = canonical ++ ['/']) := by
  obtain ⟨core, hseg, hp⟩ := hm
  have hlen : (keysOf segments).length = caps.length :=
    (segsMatch_caps_length sem true strict hseg).symm
  have hbind := parseCaps_bind (keysOf segments) caps hlen hnodup
  have hstr := stringifySegs_of_segsMatch (parseCaps (keysOf segments) caps) sem strict
    segments core caps hseg hsegs hbind hcaps []
  have hcore : core ≠ [] := by
    cases hseg with
    | nil => exact absurd rfl hne
    | consEmpty hrest' =>
      exact absurd rfl (hsegs [] (List.mem_cons_self _ _))
    | cons hne2 toksM hrest' =>
      rename_i seg rest c s cs1 caps1
      obtain ⟨t, ht⟩ := toksMatch_first_starts_slash sem seg.length toksM hne2
        (fun cap hc => hcaps cap (by simp [hc]))
      rw [ht]
      simp
  refine ⟨core, ?_, ?_⟩
  · have heq : stringify segments (parseCaps (keysOf segments) caps) =
        (stringifySegs (parseCaps (keysOf segments) caps) segments [] false).bind
          (fun path => .ok (if path = [] then ['/'] else path)) := rfl
    rw [heq, hstr]
    have hbindok : (Except.ok (ε := StringifyError) (([] : Str) ++ core)).bind
        (fun path => Except.ok (if path = [] then ['/'] else path)) =
        .ok (if ([] : Str) ++ core = [] then ['/'] else ([] : Str) ++ core) := rfl
    rw [hbindok]
    simp [hcore]
  · revert hp
    cases strict with
    | false => exact id
    | true => exact Or.inl

theorem stringify_parse_roundtrip_witness :
    reMatches semNone { sensitive := true, strict := false }
      [[Token.static "users".data], [Token.param "id".data [] false false]]
      "/users/42".data [some "42".data] ∧
    ∃ canonical,
      stringify [[Token.static "users".data], [Token.param "id".data [] false false]]
        (parseCaps
          (keysOf [[Token.static "users".data], [Token.param "id".data [] false false]])
          [some "42".data]) = .ok canonical ∧
      ("/users/42".data = canonical ∨ "/users/42".data = canonical ++ ['/']) := by
  have t1 := toksMatch.cons (tokMatch_static_first semNone true 1 "users".data)
    (toksMatch.nil false)
  have t2 := toksMatch.cons
    (tokMatch_param_first semNone true 1 "id".data "42".data (by decide) (by decide))
    (toksMatch.nil false)
  have hs := segsMatch.cons (show [Token.static "users".data] ≠ [] by simp) t1
    (segsMatch.cons (show [Token.param "id".data [] false false] ≠ [] by simp) t2
      ((segsMatch.nil : segsMatch semNone true false [] [] [])))
  have hm : reMatches semNone { sensitive := true, strict := false }
      [[Token.static "users".data], [Token.param "id".data [] false false]]
      "/users/42".data [some "42".data] := ⟨_, hs, Or.inl (by decide)⟩
  refine ⟨hm, stringify_parse_roundtrip semNone false _ _ _ hm (by decide) (by decide)
    (by decide) ?_⟩
  intro cap hc
  simp at hc
  subst hc
  exact ⟨"42".data, rfl, by decide⟩

/-- C1 counterexample: the pattern `/users` (a single static segment with no
parameters at all, so the optional-parameter escape clause of the claim does
not apply) matches the path `/users/` under the default non-strict options,
yet `stringify(parse('/users/'))` returns `/users`, not `/users/`. -/
theorem roundtrip_trailing_slash_counterexample :
    reMatches semNone {} [[Token.static "users".data]] "/users/".data [] ∧
    stringify [[Token.static "users".data]]
      (parseCaps (keysOf [[Token.static "users".data]]) []) = .ok "/users".data ∧
    "/users/".data ≠ "/users".data ∧
    keysOf [[Token.static "users".data]] = [] := by
  have t1 := toksMatch.cons (tokMatch_static_first semNone false 1 "users".data)
    (toksMatch.nil false)
  have hs := segsMatch.cons (show [Token.static "users".data] ≠ [] by simp) t1
    ((segsMatch.nil : segsMatch semNone false false [] [] []))
  exact ⟨⟨_, hs, Or.inr (by decide)⟩, by rfl, by decide, by decide⟩

end VueRouter
